import Mathlib

/-!
Verification of the HubSpot → CSV → ClickHouse loader (`main.py`).

The development shallowly embeds the pure core of the loader:
* `chunk_list` — property chunking (main.py, `chunk_list`);
* the per-record merge of chunked property responses
  (`fetch_object_data_with_chunked_properties`), driven by the sequence of
  page responses each chunk's pagination receives;
* the error-handling branches of `fetch_properties` and of the data-fetch
  loop;
* the record flattening loop of `process_object`, together with a model of
  `json.dumps(·, ensure_ascii=False)` / `json.loads` over JSON values
  (numbers restricted to integers: float formatting is floating-point
  behaviour outside the embedding);
* the column-type mapping of `drop_and_create_table` composed with a model
  of pandas' per-column dtype inference for the scalar kinds the flattener
  can produce.

Python values decoded from JSON responses are modelled by the inductive
type `Json`; Python dicts are modelled as insertion-ordered association
lists with first-match lookup and in-place overwrite on update, matching
CPython dict semantics.
-/

inductive Json where
  | null
  | bool (b : Bool)
  | num (n : Int)
  | str (s : String)
  | arr (elems : List Json)
  | obj (fields : List (String × Json))

mutual
def jeq : Json → Json → Bool
  | .null, .null => true
  | .bool a, .bool b => a == b
  | .num a, .num b => a == b
  | .str a, .str b => a == b
  | .arr a, .arr b => jeqList a b
  | .obj a, .obj b => jeqFields a b
  | _, _ => false

def jeqList : List Json → List Json → Bool
  | a :: as, b :: bs => jeq a b && jeqList as bs
  | [], [] => true
  | _, _ => false

def jeqFields : List (String × Json) → List (String × Json) → Bool
  | [], [] => true
  | (k, v) :: xs, (k', v') :: ys => k == k' && jeq v v' && jeqFields xs ys
  | _, _ => false
end

mutual
theorem jeq_iff : ∀ (a b : Json), jeq a b = true ↔ a = b
  | .null, b => by cases b <;> simp [jeq]
  | .bool a, b => by cases b <;> simp [jeq]
  | .num a, b => by cases b <;> simp [jeq]
  | .str a, b => by cases b <;> simp [jeq]
  | .arr xs, b => by
      cases b <;> simp [jeq]
      exact jeqList_iff xs _
  | .obj fs, b => by
      cases b <;> simp [jeq]
      exact jeqFields_iff fs _

theorem jeqList_iff : ∀ (a b : List Json), jeqList a b = true ↔ a = b
  | [], b => by cases b <;> simp [jeqList]
  | x :: xs, [] => by simp [jeqList]
  | x :: xs, y :: ys => by
      simp [jeqList, jeq_iff x y, jeqList_iff xs ys]

theorem jeqFields_iff : ∀ (a b : List (String × Json)), jeqFields a b = true ↔ a = b
  | [], b => by cases b <;> simp [jeqFields]
  | x :: xs, [] => by simp [jeqFields]
  | (k, v) :: xs, (k', v') :: ys => by
      simp [jeqFields, jeq_iff v v', jeqFields_iff xs ys, and_assoc]
end

instance : DecidableEq Json := fun a b => decidable_of_iff _ (jeq_iff a b)

/-- A Python dict with keys `κ` and values `ν`, as an insertion-ordered
association list whose keys are unique (CPython dicts preserve insertion
order; we never rely on uniqueness in definitions, only in hypotheses). -/
abbrev PyDict (κ ν : Type) := List (κ × ν)

/-- `d.get(k)` / `d[k]`: first binding of `k` (unique-key dicts have at most
one). Returns `none` for a missing key. -/
def pyGet {κ ν : Type} [DecidableEq κ] (d : PyDict κ ν) (k : κ) : Option ν :=
  (d.find? (fun p => p.1 = k)).map (fun p => p.2)

/-- `k in d`. -/
def pyMem {κ ν : Type} [DecidableEq κ] (d : PyDict κ ν) (k : κ) : Bool :=
  d.any (fun p => p.1 = k)

/-- `d[k] = v`: overwrite the binding in place if the key exists, else
append a new binding (CPython assignment keeps the key's position). -/
def pySet {κ ν : Type} [DecidableEq κ] (d : PyDict κ ν) (k : κ) (v : ν) : PyDict κ ν :=
  if pyMem d k then d.map (fun p => if p.1 = k then (k, v) else p) else d ++ [(k, v)]

/-- `d.update(e)`: assign every binding of `e`, in `e`'s iteration order. -/
def pyUpdate {κ ν : Type} [DecidableEq κ] (d e : PyDict κ ν) : PyDict κ ν :=
  e.foldl (fun acc p => pySet acc p.1 p.2) d

/-- The value of the last binding of `k` in `l` (`none` if absent): the
binding that survives when the bindings of `l` are assigned in order. -/
def lookupLast {κ ν : Type} [DecidableEq κ] (l : List (κ × ν)) (k : κ) : Option ν :=
  (l.reverse.find? (fun p => p.1 = k)).map (fun p => p.2)

/-- Python truthiness of a decoded JSON value: `None`, `False`, `0`, `""`,
`[]` and `{}` are falsy, everything else truthy. -/
def pyTruthy : Json → Bool
  | .null => false
  | .bool b => b
  | .num n => n != 0
  | .str s => s != ""
  | .arr l => !l.isEmpty
  | .obj l => !l.isEmpty

/-- Python `a or b` on optional values, where `none` stands for Python
`None` (itself falsy): the left operand if truthy, else the right. -/
def pyOrElse (a b : Option Json) : Option Json :=
  match a with
  | some v => if pyTruthy v then some v else b
  | none => b

/-- `rec.get(k)` for the chained id lookup: a stored JSON `null` is Python
`None`, indistinguishable from a missing key for truthiness and for the
`is None` test, so both map to `none`. -/
def pyGetN (d : PyDict String Json) (k : String) : Option Json :=
  match pyGet d k with
  | some .null => none
  | x => x

/-- `PROPERTIES_CHUNK_SIZE` (main.py configuration). -/
def PROPERTIES_CHUNK_SIZE : Nat := 50

/-- `PAGE_LIMIT` (main.py configuration). -/
def PAGE_LIMIT : Nat := 100

/-- `chunk_list(lst, chunk_size)`: for `i in range(0, len(lst), chunk_size)`
yield `lst[i:i + chunk_size]`. For a positive step the range has
`⌈len/step⌉ = (len + step - 1) / step` elements `i = k * step`, and the
slice `lst[i:i+n]` is `(lst.drop i).take n`. -/
def chunk_list {α : Type} (lst : List α) (chunk_size : Nat) : List (List α) :=
  (List.range ((lst.length + chunk_size - 1) / chunk_size)).map
    (fun k => (lst.drop (k * chunk_size)).take chunk_size)

/-- One element of a page's `results` list: a decoded JSON record dict. -/
abbrev ApiRec := PyDict String Json

/-- `rec.get("id") or rec.get("objectId") or rec.get("object_id")` followed
by the `if rec_id is None: continue` test: the chained `or` takes the first
truthy operand, and otherwise the value of the last lookup; the record is
kept iff the final value is not `None`. -/
def extractId (rec : ApiRec) : Option Json :=
  pyOrElse (pyOrElse (pyGetN rec "id") (pyGetN rec "objectId")) (pyGetN rec "object_id")

/-- `rec.get("properties", {})`: the record's property mapping. The claims
only exercise records whose `properties` value is a JSON object (a
non-mapping value would make `dict.update` raise, which no claim covers),
so other shapes are mapped to the empty dict. -/
def recProperties (rec : ApiRec) : PyDict String Json :=
  match pyGet rec "properties" with
  | some (.obj fs) => fs
  | _ => []

/-- One entry of `records_map`: `{"id": rec_id, "properties": {...}}`. -/
structure MRec where
  id : Json
  properties : PyDict String Json
  deriving DecidableEq

/-- `records_map`: dict from record identifier to its merged entry. -/
abbrev RMap := PyDict Json MRec

/-- The body of the `for rec in results` merge loop: skip the record when
the identifier chain yields `None`; otherwise create the entry if absent
and `update` its property dict with this chunk's properties. -/
def mergeRec (m : RMap) (rec : ApiRec) : RMap :=
  match extractId rec with
  | none => m
  | some recId =>
    let m1 := if pyMem m recId then m else pySet m recId ⟨recId, []⟩
    match pyGet m1 recId with
    | some entry => pySet m1 recId ⟨entry.id, pyUpdate entry.properties (recProperties rec)⟩
    | none => m1

/-- Merging one page's `results` into `records_map`. -/
def mergeResults (m : RMap) (results : List ApiRec) : RMap :=
  results.foldl mergeRec m

/-- A successful page response body: `results` plus the continuation cursor
`paging.next.after` when that key is present. -/
structure Page where
  results : List ApiRec
  after : Option String
  deriving DecidableEq

/-- The outcome of one `session.get` of the data-fetch loop:
a parsed page, an `HTTPError` from `raise_for_status` (carrying
`e.response.status_code` when a response is attached), or any other
exception (network error, decode error, …). -/
inductive PageResp where
  | ok (page : Page)
  | httpErr (code : Option Nat)
  | exn
  deriving DecidableEq

/-- `code in (403, 401)`. -/
def isAuthCode (c : Option Nat) : Bool :=
  c == some 403 || c == some 401

/-- How a chunk's pagination loop stopped. -/
inductive Halt where
  | done
  | outOfTrace
  | auth
  | fatal
  deriving DecidableEq

/-- Result of running one chunk's pagination against the sequence of
responses its successive requests receive: the updated `records_map`, the
`after` parameter of every request issued, the number of responses
consumed, and how the loop stopped. `outOfTrace` marks the supplied
sequence ending while a cursor was still pending (the real loop would
issue a further request); theorems about completed runs exclude it. -/
structure ChunkRun where
  map : RMap
  reqs : List (Option String)
  used : Nat
  halt : Halt
  deriving DecidableEq

/-- The `while True` pagination loop of one property chunk, driven by the
response sequence: merge each page's results, continue while
`paging.next.after` is present (the new cursor becomes the next request's
`after`), stop when it is absent; on 401/403 the whole fetch returns `[]`,
on any other error the exception propagates. -/
def runChunk (m : RMap) (after : Option String) : List PageResp → ChunkRun
  | [] => ⟨m, [], 0, .outOfTrace⟩
  | .httpErr c :: _ =>
    if isAuthCode c then ⟨m, [after], 1, .auth⟩ else ⟨m, [after], 1, .fatal⟩
  | .exn :: _ => ⟨m, [after], 1, .fatal⟩
  | .ok page :: rest =>
    match page.after with
    | some cursor =>
      let r := runChunk (mergeResults m page.results) (some cursor) rest
      ⟨r.map, after :: r.reqs, r.used + 1, r.halt⟩
    | none => ⟨mergeResults m page.results, [after], 1, .done⟩

/-- Result of the outer `for prop_chunk in prop_chunks` loop. -/
structure FetchRun where
  map : RMap
  chunkReqs : List (List (Option String))
  halt : Halt
  deriving DecidableEq

/-- The outer loop over property chunks: each chunk re-paginates from the
first page (`params` is rebuilt per chunk, so no cursor carries over), and
any abnormal chunk stop ends the whole fetch. Each chunk is paired with
the response sequence its pagination receives. -/
def runChunks (m : RMap) : List (List String × List PageResp) → FetchRun
  | [] => ⟨m, [], .done⟩
  | (_, trace) :: rest =>
    let r := runChunk m none trace
    match r.halt with
    | .done =>
      let r2 := runChunks r.map rest
      ⟨r2.map, r.reqs :: r2.chunkReqs, r2.halt⟩
    | h => ⟨r.map, [r.reqs], h⟩

/-- `fetch_object_data_with_chunked_properties`, as a function of the
property list and of the per-chunk response sequences: returns the merged
records `list(records_map.values())`, or `[]` on a permission error
(401/403), or raises (`Except.error`) on any other fetch error. On an
`outOfTrace` run the supplied sequences only cover part of the loop's
requests; the returned value then reflects the covered part, and theorems
do not rely on it. -/
def fetch_object_data_with_chunked_properties (all_properties : List String)
    (traces : List (List PageResp)) : Except Unit (List MRec) :=
  if all_properties.isEmpty then .ok []
  else
    let prop_chunks := chunk_list all_properties PROPERTIES_CHUNK_SIZE
    let r := runChunks [] (prop_chunks.zip traces)
    match r.halt with
    | .auth => .ok []
    | .fatal => .error ()
    | _ => .ok (r.map.map (fun p => p.2))

/-- The outcome of the single metadata request of `fetch_properties`:
a parsed name list, an `HTTPError`, or any other exception. -/
inductive PropsResp where
  | ok (names : List String)
  | httpErr (code : Option Nat)
  | exn
  deriving DecidableEq

/-- `fetch_properties`: returns the parsed names on success; returns `[]`
on an `HTTPError` with status 401/403 or 400; re-raises other
`HTTPError`s; and returns `[]` from the blanket `except Exception`
handler on any non-`HTTPError` failure. -/
def fetch_properties : PropsResp → Except Unit (List String)
  | .ok names => .ok names
  | .httpErr c =>
    if isAuthCode c then .ok []
    else if c == some 400 then .ok []
    else .error ()
  | .exn => .ok []

/-- Hex digit as `json.dumps` emits it inside `\uXXXX` escapes (lowercase). -/
def hexDig (n : Nat) : Char :=
  if n < 10 then Char.ofNat (48 + n) else Char.ofNat (87 + n)

/-- One character of a JSON string literal as `json.dumps(...,
ensure_ascii=False)` emits it: `"` and `\` are backslash-escaped, the five
control characters with short forms use them, any other character below
U+0020 becomes `\u00XX`, and everything else is emitted as itself. -/
def escChar (c : Char) : List Char :=
  if c = '"' then ['\\', '"']
  else if c = '\\' then ['\\', '\\']
  else if c = '\n' then ['\\', 'n']
  else if c = '\t' then ['\\', 't']
  else if c = '\r' then ['\\', 'r']
  else if c = Char.ofNat 8 then ['\\', 'b']
  else if c = Char.ofNat 12 then ['\\', 'f']
  else if c.toNat < 32 then
    ['\\', 'u', '0', '0', hexDig (c.toNat / 16), hexDig (c.toNat % 16)]
  else [c]

/-- A string literal's escaped body. -/
def escStr (s : List Char) : List Char := (s.map escChar).flatten

/-- Decimal digit characters of `n`, most significant first
(`int.__repr__` for non-negative integers). -/
def natChars (n : Nat) : List Char :=
  if _h : n < 10 then [Char.ofNat (48 + n)]
  else natChars (n / 10) ++ [Char.ofNat (48 + n % 10)]
termination_by n
decreasing_by exact Nat.div_lt_self (by omega) (by omega)

/-- `int.__repr__`: decimal digits, `-`-prefixed when negative. -/
def intChars (i : Int) : List Char :=
  if i < 0 then '-' :: natChars i.natAbs else natChars i.toNat

mutual
/-- `json.dumps(v, ensure_ascii=False)` with the default separators
`", "` and `": "`, as a character list. -/
def dumpVal : Json → List Char
  | .null => 'n' :: ['u', 'l', 'l']
  | .bool true => 't' :: ['r', 'u', 'e']
  | .bool false => 'f' :: ['a', 'l', 's', 'e']
  | .num n => intChars n
  | .str s => '"' :: escStr s.data ++ ['"']
  | .arr xs => '[' :: dumpElems xs ++ [']']
  | .obj fs => '{' :: dumpFields fs ++ ['}']

/-- Array elements joined by `", "`. -/
def dumpElems : List Json → List Char
  | [] => []
  | [x] => dumpVal x
  | x :: y :: xs => dumpVal x ++ ',' :: ' ' :: dumpElems (y :: xs)

/-- Object members `"key": value` joined by `", "`. -/
def dumpFields : List (String × Json) → List Char
  | [] => []
  | [(k, v)] => '"' :: escStr k.data ++ '"' :: ':' :: ' ' :: dumpVal v
  | (k, v) :: f :: fs =>
    '"' :: escStr k.data ++ '"' :: ':' :: ' ' :: dumpVal v ++ ',' :: ' ' :: dumpFields (f :: fs)
end

/-- `json.dumps(v, ensure_ascii=False)`. -/
def json_dumps (v : Json) : String := String.mk (dumpVal v)

/-- `isinstance(v, dict) and "value" in v and len(v) == 1`: a mapping whose
sole key is `"value"`. -/
def isValueWrapped : Json → Bool
  | .obj [(k, _)] => k == "value"
  | _ => false

/-- `v.get("value")` in the wrapped case. -/
def wrappedInner : Json → Json
  | .obj [(_, x)] => x
  | _ => .null

/-- A nested mapping or ordered sequence (the values the flattener
JSON-serializes when they are not a sole-key value wrapper). -/
def isComplex : Json → Bool
  | .obj _ => true
  | .arr _ => true
  | _ => false

/-- The per-field rule of the flattening loop in `process_object`: unwrap a
single-key `{"value": X}` mapping to `X`; otherwise JSON-serialize a
mapping or list; otherwise keep the value. -/
def flattenVal (v : Json) : Json :=
  if isValueWrapped v then wrappedInner v
  else
    match v with
    | .obj _ => .str (json_dumps v)
    | .arr _ => .str (json_dumps v)
    | x => x

/-- The flattening loop of `process_object`: start from
`row = {"id": rec["id"]}` and assign `row[k] = flattened v` for every
property binding in iteration order. -/
def flattenRecord (rec : MRec) : PyDict String Json :=
  rec.properties.foldl (fun row p => pySet row p.1 (flattenVal p.2)) [("id", rec.id)]

/-- A scalar cell of the flattened DataFrame, as a Python object: the
flattener can put ints, strings, booleans and `None` in a column (floats
are outside the integer-numbered embedding). -/
inductive PyCell where
  | cInt (n : Int)
  | cStr (s : String)
  | cBool (b : Bool)
  | cNone
  deriving DecidableEq

/-- `n` fits in a signed 64-bit integer. -/
def inInt64 (n : Int) : Bool :=
  (-(2 ^ 63) : Int) ≤ n && n ≤ (2 ^ 63 - 1 : Int)

/-- A pandas column dtype, restricted to the kinds `pd.DataFrame` can infer
for columns of `PyCell` values. -/
inductive PdDtype where
  | int64
  | float64
  | boolDt
  | objectDt
  deriving DecidableEq

/-- An int-in-64-bit-range cell. -/
def cellIsInt64 : PyCell → Bool
  | .cInt n => inInt64 n
  | _ => false

/-- An int-in-range or missing cell. -/
def cellIsInt64OrNone : PyCell → Bool
  | .cInt n => inInt64 n
  | .cNone => true
  | _ => false

/-- An int cell. -/
def cellIsInt : PyCell → Bool
  | .cInt _ => true
  | _ => false

/-- A boolean cell. -/
def cellIsBool : PyCell → Bool
  | .cBool _ => true
  | _ => false

/-- Modelled pandas behaviour (pandas is an external collaborator;
`process_object` builds the frame with `pd.DataFrame(flat_rows)`): a
non-empty column of Python ints all fitting in 64 bits is `int64`; ints
mixed with missing values are promoted to `float64` (missing becomes NaN);
an all-boolean column is `bool`; every other column — any column
containing a string (numeric-looking or not), mixed kinds, out-of-range
ints, an empty or all-missing column — is `object`. -/
def inferDtype (col : List PyCell) : PdDtype :=
  if col.isEmpty then .objectDt
  else if col.all cellIsInt64 then .int64
  else if col.all cellIsInt64OrNone && col.any cellIsInt then .float64
  else if col.all cellIsBool then .boolDt
  else .objectDt

/-- The dtype branch of `drop_and_create_table`: integer dtypes map to
`Int64`, float dtypes to `Float64`, everything else to `String`. -/
def chColType : PdDtype → String
  | .int64 => "Int64"
  | .float64 => "Float64"
  | _ => "String"

/-- Column type the loader creates for a column of cells. -/
def inferColumnType (col : List PyCell) : String :=
  chColType (inferDtype col)

/-- JSON whitespace. -/
def isWsCh (c : Char) : Bool :=
  c == ' ' || c == '\n' || c == '\t' || c == '\r'

/-- Skip insignificant whitespace. -/
def skipWs (l : List Char) : List Char := l.dropWhile isWsCh

/-- ASCII decimal digit. -/
def isDigitCh (c : Char) : Bool := '0' ≤ c && c ≤ '9'

/-- The list does not start with a digit (a JSON number token cannot be
extended by what follows). -/
def noDigitHead : List Char → Bool
  | [] => true
  | c :: _ => !isDigitCh c

/-- Value of a hex digit. -/
def hexVal (c : Char) : Option Nat :=
  if c ≥ '0' ∧ c ≤ '9' then some (c.toNat - 48)
  else if c ≥ 'a' ∧ c ≤ 'f' then some (c.toNat - 87)
  else if c ≥ 'A' ∧ c ≤ 'F' then some (c.toNat - 55)
  else none

/-- Short escape sequences accepted after a backslash. -/
def unescShort (e : Char) : Option Char :=
  if e = '"' then some '"'
  else if e = '\\' then some '\\'
  else if e = '/' then some '/'
  else if e = 'n' then some '\n'
  else if e = 't' then some '\t'
  else if e = 'r' then some '\r'
  else if e = 'b' then some (Char.ofNat 8)
  else if e = 'f' then some (Char.ofNat 12)
  else none

mutual
/-- Body of a string literal, after the opening quote: content characters
up to the unescaped closing quote, plus the remaining input. -/
def parseStrBody : List Char → Option (List Char × List Char)
  | [] => none
  | c :: rest =>
    if c = '"' then some ([], rest)
    else if c = '\\' then parseEsc rest
    else (parseStrBody rest).map (fun p => (c :: p.1, p.2))

/-- An escape sequence, after the backslash. -/
def parseEsc : List Char → Option (List Char × List Char)
  | [] => none
  | e :: rest =>
    if e = 'u' then
      match rest with
      | h1 :: h2 :: h3 :: h4 :: r =>
        match hexVal h1, hexVal h2, hexVal h3, hexVal h4 with
        | some a, some b, some c, some d =>
          (parseStrBody r).map
            (fun p => (Char.ofNat (((a * 16 + b) * 16 + c) * 16 + d) :: p.1, p.2))
        | _, _, _, _ => none
      | _ => none
    else
      match unescShort e with
      | some c => (parseStrBody rest).map (fun p => (c :: p.1, p.2))
      | none => none
end

/-- Longest digit run at the head of the input, as digit values. -/
def takeDigits : List Char → List Nat × List Char
  | [] => ([], [])
  | c :: rest =>
    if isDigitCh c then
      let p := takeDigits rest
      ((c.toNat - 48) :: p.1, p.2)
    else ([], c :: rest)

/-- Value of a digit-value list, most significant first. -/
def digitsToNat (ds : List Nat) : Nat := ds.foldl (fun a d => a * 10 + d) 0

/-- An integer token: optional minus sign, then one or more digits. -/
def parseIntToken : List Char → Option (Int × List Char)
  | [] => none
  | c :: rest =>
    if c = '-' then
      let p := takeDigits rest
      if p.1.isEmpty then none else some (-(digitsToNat p.1 : Int), p.2)
    else
      let p := takeDigits (c :: rest)
      if p.1.isEmpty then none else some ((digitsToNat p.1 : Int), p.2)

/-- Expect a literal character sequence, returning the rest. -/
def expectLit : List Char → List Char → Option (List Char)
  | [], l => some l
  | _ :: _, [] => none
  | c :: cs, x :: xs => if x = c then expectLit cs xs else none

mutual
/-- Recursive-descent JSON value parser (the `json.loads` counterpart of
`dumpVal`), fuelled to bound nesting. -/
def parseVal : Nat → List Char → Option (Json × List Char)
  | 0, _ => none
  | fuel + 1, input =>
    match skipWs input with
    | [] => none
    | c :: rest =>
      if c = 'n' then (expectLit ['u', 'l', 'l'] rest).map (fun r => (Json.null, r))
      else if c = 't' then (expectLit ['r', 'u', 'e'] rest).map (fun r => (Json.bool true, r))
      else if c = 'f' then (expectLit ['a', 'l', 's', 'e'] rest).map (fun r => (Json.bool false, r))
      else if c = '"' then (parseStrBody rest).map (fun p => (Json.str (String.mk p.1), p.2))
      else if c = '[' then
        let r0 := skipWs rest
        if r0.head? = some ']' then some (Json.arr [], r0.tail)
        else (parseItemList fuel r0).map (fun p => (Json.arr p.1, p.2))
      else if c = '{' then
        let r0 := skipWs rest
        if r0.head? = some '}' then some (Json.obj [], r0.tail)
        else (parseFieldList fuel r0).map (fun p => (Json.obj p.1, p.2))
      else if c = '-' || isDigitCh c then
        (parseIntToken (c :: rest)).map (fun p => (Json.num p.1, p.2))
      else none

/-- One or more array elements, then the closing bracket. -/
def parseItemList : Nat → List Char → Option (List Json × List Char)
  | 0, _ => none
  | fuel + 1, input =>
    match parseVal fuel input with
    | none => none
    | some (v, r) =>
      let r1 := skipWs r
      if r1.head? = some ',' then (parseItemList fuel r1.tail).map (fun p => (v :: p.1, p.2))
      else if r1.head? = some ']' then some ([v], r1.tail)
      else none

/-- One or more object members, then the closing brace. -/
def parseFieldList : Nat → List Char → Option (List (String × Json) × List Char)
  | 0, _ => none
  | fuel + 1, input =>
    let l := skipWs input
    if l.head? = some '"' then
      match parseStrBody l.tail with
      | none => none
      | some (k, r) =>
        let r1 := skipWs r
        if r1.head? = some ':' then
          match parseVal fuel r1.tail with
          | none => none
          | some (v, r2) =>
            let r3 := skipWs r2
            if r3.head? = some ',' then
              (parseFieldList fuel r3.tail).map (fun p => ((String.mk k, v) :: p.1, p.2))
            else if r3.head? = some '}' then some ([(String.mk k, v)], r3.tail)
            else none
        else none
    else none
end

mutual
/-- Parser fuel needed for a value: one unit per bracket nesting step. -/
def fsize : Json → Nat
  | .arr xs => fsizeElems xs + 1
  | .obj fs => fsizeFields fs + 1
  | _ => 1

/-- Fuel needed by `parseItemList` on a non-empty element list. -/
def fsizeElems : List Json → Nat
  | [] => 0
  | [x] => fsize x + 1
  | x :: y :: xs => max (fsize x) (fsizeElems (y :: xs)) + 1

/-- Fuel needed by `parseFieldList` on a non-empty member list. -/
def fsizeFields : List (String × Json) → Nat
  | [] => 0
  | [(_, v)] => fsize v + 1
  | (_, v) :: f :: fs => max (fsize v) (fsizeFields (f :: fs)) + 1
end

/-- `json.loads`: parse a complete value, allowing trailing whitespace. -/
def json_loads (s : String) : Option Json :=
  match parseVal (s.data.length + 1) s.data with
  | some (v, r) => if (skipWs r).isEmpty then some v else none
  | none => none

/-- The results of the successful pages of a response sequence, in order
(specification helper). -/
def traceResults (t : List PageResp) : List ApiRec :=
  (t.map (fun r => match r with | .ok p => p.results | _ => [])).flatten

/-- All results of all pages of all chunks, in processing order
(specification helper). -/
def allResults (traces : List (List PageResp)) : List ApiRec :=
  (traces.map traceResults).flatten

/-- The identifiers extracted from a result stream (specification helper). -/
def extractedIds (s : List ApiRec) : List Json := s.filterMap extractId

/-- The property bindings returned for identifier `i` anywhere in the
stream, concatenated in processing order (specification helper). -/
def propsFor (i : Json) (s : List ApiRec) : List (String × Json) :=
  ((s.filter (fun r => extractId r = some i)).map recProperties).flatten

/-- A proper pagination response sequence: successful pages only, every
page but the last carrying a continuation cursor and the last omitting it
(specification helper). -/
def wfTrace : List PageResp → Bool
  | [] => false
  | [.ok p] => p.after.isNone
  | .ok p :: r :: rs => p.after.isSome && wfTrace (r :: rs)
  | _ => false

/-- A successful page that carries a continuation cursor (specification
helper). -/
def okWithCursor : PageResp → Bool
  | .ok p => p.after.isSome
  | _ => false

/-- A failed request outcome (specification helper). -/
def isFailResp : PageResp → Bool
  | .ok _ => false
  | _ => true

/-- A 401/403 failure (specification helper). -/
def isAuthResp : PageResp → Bool
  | .httpErr c => isAuthCode c
  | _ => false

/-- Index of the first response whose page omits the continuation cursor,
scanning only through cursor-carrying successful pages (specification
helper). -/
def stopsAt : List PageResp → Option Nat
  | [] => none
  | .ok p :: rest => if p.after.isSome then (stopsAt rest).map (· + 1) else some 0
  | _ => none

/-- The control skeleton of the pagination loop over an unbounded stream
of responses: `cur i` is the cursor presence of the `i`-th response, the
result is the number of pages a run from page `i` processes, `none`
meaning the fuel ran out before a page omitted the cursor (specification
helper for the termination claim). -/
def cursorLoop (cur : Nat → Option String) : Nat → Nat → Option Nat
  | 0, _ => none
  | fuel + 1, i =>
    if (cur i).isSome then (cursorLoop cur fuel (i + 1)).map (· + 1) else some 1


theorem pyMem_eq_isSome {κ ν : Type} [DecidableEq κ] (d : PyDict κ ν) (k : κ) :
    pyMem d k = (pyGet d k).isSome := by
  induction d with
  | nil => rfl
  | cons p d ih =>
    by_cases h : p.1 = k
    · simp [pyMem, pyGet, List.find?_cons_of_pos, h]
    · simp only [pyMem, pyGet, List.any_cons] at ih ⊢
      rw [List.find?_cons_of_neg _ (by simpa using h)]
      simpa [h] using ih

theorem pyGet_map_ne {κ ν : Type} [DecidableEq κ] (d : PyDict κ ν) (k k' : κ) (v : ν)
    (h : k' ≠ k) :
    pyGet (d.map (fun p => if p.1 = k then (k, v) else p)) k' = pyGet d k' := by
  have hkk : ¬ (k = k') := fun e => h e.symm
  induction d with
  | nil => rfl
  | cons p d ih =>
    by_cases hp : p.1 = k
    · simp only [pyGet, List.map_cons, hp, if_pos]
      rw [List.find?_cons_of_neg _ (by simpa using hkk),
        List.find?_cons_of_neg _ (by simp [hp, hkk])]
      exact ih
    · simp only [pyGet, List.map_cons, hp, if_neg, not_false_iff]
      by_cases hk : p.1 = k'
      · rw [List.find?_cons_of_pos _ (by simpa using hk),
          List.find?_cons_of_pos _ (by simpa using hk)]
      · rw [List.find?_cons_of_neg _ (by simpa using hk),
          List.find?_cons_of_neg _ (by simpa using hk)]
        exact ih

theorem pyGet_map_self {κ ν : Type} [DecidableEq κ] (d : PyDict κ ν) (k : κ) (v : ν)
    (h : pyMem d k = true) :
    pyGet (d.map (fun p => if p.1 = k then (k, v) else p)) k = some v := by
  induction d with
  | nil => simp [pyMem] at h
  | cons p d ih =>
    by_cases hp : p.1 = k
    · simp only [pyGet, List.map_cons, hp, if_pos]
      rw [List.find?_cons_of_pos _ (by simp)]
      rfl
    · simp only [pyMem, List.any_cons] at h
      have h2 : pyMem d k = true := by
        rcases Bool.or_eq_true_iff.mp h with h1 | h1
        · exact absurd (of_decide_eq_true h1) hp
        · exact h1
      simp only [pyGet, List.map_cons, hp, if_neg, not_false_iff]
      rw [List.find?_cons_of_neg _ (by simpa using hp)]
      exact ih h2

theorem pyGet_pySet {κ ν : Type} [DecidableEq κ] (d : PyDict κ ν) (k k' : κ) (v : ν) :
    pyGet (pySet d k v) k' = if k' = k then some v else pyGet d k' := by
  unfold pySet
  split
  case isTrue hm =>
    by_cases h : k' = k
    · subst h; simp [pyGet_map_self _ _ _ hm]
    · simp [h, pyGet_map_ne _ _ _ _ h]
  case isFalse hm =>
    have hget : pyGet d k = none := by
      have h1 := pyMem_eq_isSome d k
      rw [Bool.not_eq_true] at hm
      rw [hm] at h1
      cases hq : pyGet d k with
      | none => rfl
      | some x => rw [hq] at h1; simp at h1
    have hfind : List.find? (fun p => decide (p.1 = k)) d = none := by
      have := hget
      unfold pyGet at this
      exact Option.map_eq_none.mp this
    by_cases h : k' = k
    · subst h
      simp only [pyGet, List.find?_append, hfind, Option.none_or, if_pos,
        List.find?_singleton]
      simp
    · simp only [pyGet, List.find?_append, h, if_neg, not_false_iff,
        List.find?_singleton]
      have : ¬ (k = k') := fun e => h e.symm
      simp [Option.map_or', this, Option.or_none]

theorem lookupLast_nil {κ ν : Type} [DecidableEq κ] (k : κ) :
    lookupLast ([] : PyDict κ ν) k = none := rfl

theorem lookupLast_cons {κ ν : Type} [DecidableEq κ] (p : κ × ν) (l : List (κ × ν)) (k : κ) :
    lookupLast (p :: l) k = (lookupLast l k).or (if p.1 = k then some p.2 else none) := by
  unfold lookupLast
  rw [List.reverse_cons, List.find?_append, Option.map_or', List.find?_singleton]
  by_cases h : p.1 = k <;> simp [h]

theorem lookupLast_append {κ ν : Type} [DecidableEq κ] (a b : List (κ × ν)) (k : κ) :
    lookupLast (a ++ b) k = (lookupLast b k).or (lookupLast a k) := by
  unfold lookupLast
  rw [List.reverse_append, List.find?_append, Option.map_or']

theorem pyUpdate_cons {κ ν : Type} [DecidableEq κ] (d : PyDict κ ν) (p : κ × ν) (e : List (κ × ν)) :
    pyUpdate d (p :: e) = pyUpdate (pySet d p.1 p.2) e := rfl

theorem pyUpdate_append {κ ν : Type} [DecidableEq κ] (d : PyDict κ ν) (a b : List (κ × ν)) :
    pyUpdate d (a ++ b) = pyUpdate (pyUpdate d a) b := by
  unfold pyUpdate
  rw [List.foldl_append]

theorem pyGet_pyUpdate {κ ν : Type} [DecidableEq κ] (d : PyDict κ ν) (e : List (κ × ν)) (k : κ) :
    pyGet (pyUpdate d e) k = (lookupLast e k).or (pyGet d k) := by
  induction e generalizing d with
  | nil => simp [pyUpdate, lookupLast_nil]
  | cons p e ih =>
    rw [pyUpdate_cons, ih, pyGet_pySet, lookupLast_cons, Option.or_assoc]
    congr 1
    by_cases h : p.1 = k
    · simp [h]
    · have : ¬ (k = p.1) := fun e => h e.symm
      simp [h, this]

theorem lookupLast_eq_none {κ ν : Type} [DecidableEq κ] (l : List (κ × ν)) (k : κ)
    (h : k ∉ l.map Prod.fst) : lookupLast l k = none := by
  unfold lookupLast
  have hf : List.find? (fun p => decide (p.1 = k)) l.reverse = none := by
    rw [List.find?_eq_none]
    intro x hx
    simp only [decide_eq_true_eq]
    intro he
    exact h (List.mem_map.mpr ⟨x, List.mem_reverse.mp hx, he⟩)
  rw [hf]
  rfl

theorem lookupLast_mem_nodup {κ ν : Type} [DecidableEq κ] (l : List (κ × ν)) (k : κ) (v : ν)
    (hnd : (l.map Prod.fst).Nodup) (hm : (k, v) ∈ l) : lookupLast l k = some v := by
  induction l with
  | nil => cases hm
  | cons q l ih =>
    simp only [List.map_cons, List.nodup_cons] at hnd
    rcases List.mem_cons.mp hm with he | hmem
    · subst he
      rw [lookupLast_cons, lookupLast_eq_none _ _ hnd.1]
      simp
    · rw [lookupLast_cons, ih hnd.2 hmem]
      simp
  
theorem pyGet_mem_nodup {κ ν : Type} [DecidableEq κ] (l : List (κ × ν)) (k : κ) (v : ν)
    (hnd : (l.map Prod.fst).Nodup) (hm : (k, v) ∈ l) : pyGet l k = some v := by
  induction l with
  | nil => cases hm
  | cons q l ih =>
    simp only [List.map_cons, List.nodup_cons] at hnd
    rcases List.mem_cons.mp hm with he | hmem
    · subst he
      unfold pyGet
      rw [List.find?_cons_of_pos _ (by simp)]
      rfl
    · have hq : ¬ (q.1 = k) := by
        intro he
        exact hnd.1 (he ▸ List.mem_map.mpr ⟨(k, v), hmem, rfl⟩)
      unfold pyGet
      rw [List.find?_cons_of_neg _ (by simpa using hq)]
      exact ih hnd.2 hmem

theorem pyGet_isSome_iff_mem {κ ν : Type} [DecidableEq κ] (l : List (κ × ν)) (k : κ) :
    (pyGet l k).isSome = true ↔ k ∈ l.map Prod.fst := by
  unfold pyGet
  have hs : ((List.find? (fun p => decide (p.1 = k)) l).map (fun p => p.2)).isSome
      = (List.find? (fun p => decide (p.1 = k)) l).isSome := by
    cases List.find? (fun p => decide (p.1 = k)) l <;> rfl
  rw [hs]
  simp only [List.find?_isSome]
  constructor
  · rintro ⟨x, hx, hp⟩
    exact List.mem_map.mpr ⟨x, hx, of_decide_eq_true hp⟩
  · intro h
    rcases List.mem_map.mp h with ⟨x, hx, he⟩
    exact ⟨x, hx, by simp [he]⟩

theorem chunk_div_succ (n c : Nat) (hc : 0 < c) (hn : 0 < n) :
    (n + c - 1) / c = (n - c + c - 1) / c + 1 := by
  rcases Nat.lt_or_ge n c with h | h
  · have h1 : n - c = 0 := by omega
    rw [h1]
    have h2 : (n + c - 1) / c = 1 := by
      apply Nat.div_eq_of_lt_le <;> omega
    have h3 : (0 + c - 1) / c = 0 := Nat.div_eq_of_lt (by omega)
    rw [h2, h3]
  · have h1 : n - c + c - 1 = n - 1 := by omega
    have h2 : n + c - 1 = (n - 1) + c := by omega
    rw [h1, h2, Nat.add_div_right _ hc]

theorem chunk_list_nil {α : Type} (c : Nat) : chunk_list ([] : List α) c = [] := by
  unfold chunk_list
  have h0 : (List.length ([] : List α) + c - 1) / c = 0 := by
    cases c with
    | zero => simp
    | succ c => exact Nat.div_eq_of_lt (by simp)
  rw [h0]
  rfl

theorem chunk_list_cons {α : Type} (l : List α) (c : Nat) (hc : 0 < c) (hl : l ≠ []) :
    chunk_list l c = l.take c :: chunk_list (l.drop c) c := by
  unfold chunk_list
  have hn : 0 < l.length := List.length_pos.mpr hl
  rw [List.length_drop, chunk_div_succ _ _ hc hn, List.range_succ_eq_map]
  rw [List.map_cons, List.map_map]
  congr 1
  · simp
  · apply List.map_congr_left
    intro i _
    simp only [Function.comp_apply]
    rw [List.drop_drop, Nat.succ_mul, Nat.add_comm (i * c) c]

theorem chunk_list_flatten {α : Type} (c : Nat) (hc : 0 < c) :
    ∀ l : List α, (chunk_list l c).flatten = l := by
  have main : ∀ (n : Nat) (l : List α), l.length ≤ n → (chunk_list l c).flatten = l := by
    intro n
    induction n with
    | zero =>
      intro l hl
      have h0 : l = [] := by cases l <;> simp_all
      subst h0
      rw [chunk_list_nil]
      rfl
    | succ n ih =>
      intro l hl
      by_cases h : l = []
      · subst h; rw [chunk_list_nil]; rfl
      · rw [chunk_list_cons _ _ hc h, List.flatten_cons,
          ih (l.drop c) (by rw [List.length_drop]; have := List.length_pos.mpr h; omega)]
        exact List.take_append_drop c l
  exact fun l => main l.length l (le_refl _)

theorem chunk_list_length {α : Type} (l : List α) (c : Nat) :
    (chunk_list l c).length = (l.length + c - 1) / c := by
  simp [chunk_list]

theorem chunk_list_get_len {α : Type} (l : List α) (c i : Nat) (hc : 0 < c)
    (hi : i + 1 < (chunk_list l c).length) :
    ((chunk_list l c).get ⟨i, Nat.lt_of_succ_lt hi⟩).length = c := by
  have hval : (chunk_list l c).get ⟨i, Nat.lt_of_succ_lt hi⟩ = (l.drop (i * c)).take c := by
    simp [chunk_list]
  rw [hval, List.length_take, List.length_drop]
  rw [chunk_list_length] at hi
  have h1 : i + 2 ≤ (l.length + c - 1) / c := hi
  have h2 : (i + 2) * c ≤ l.length + c - 1 := (Nat.le_div_iff_mul_le hc).mp h1
  have h3 : (i + 2) * c = i * c + 2 * c := by ring
  rw [h3] at h2
  generalize i * c = K at h2 ⊢
  omega

theorem chunk_list_ceil_bounds {α : Type} (l : List α) (c : Nat) (hc : 0 < c) :
    l.length ≤ (chunk_list l c).length * c ∧ (chunk_list l c).length * c < l.length + c := by
  rw [chunk_list_length]
  have hdm := Nat.div_add_mod (l.length + c - 1) c
  have hmlt : (l.length + c - 1) % c < c := Nat.mod_lt _ hc
  rcases Nat.eq_zero_or_pos l.length with h0 | h0
  · rw [h0]
    have : (0 + c - 1) / c = 0 := Nat.div_eq_of_lt (by omega)
    rw [this]
    omega
  · have hc2 : c * ((l.length + c - 1) / c) = ((l.length + c - 1) / c) * c := Nat.mul_comm _ _
    rw [hc2] at hdm
    generalize ((l.length + c - 1) / c) * c = K at hdm ⊢
    omega

/-- C2: for every property list and chunk size `c > 0`, `chunk_list` yields
exactly `⌈N/c⌉` chunks (the first conjunct gives the closed form
`(N + c - 1) / c`, the next two pin it as the exact ceiling:
`N ≤ k·c < N + c`), their concatenation equals the original list (so order
is preserved and nothing is lost or duplicated), and every chunk except
possibly the last has length exactly `c`. -/
theorem c2_chunk_list_partition {α : Type} (l : List α) (c : Nat) (hc : 0 < c) :
    (chunk_list l c).length = (l.length + c - 1) / c ∧
    l.length ≤ (chunk_list l c).length * c ∧
    (chunk_list l c).length * c < l.length + c ∧
    (chunk_list l c).flatten = l ∧
    ∀ i (hi : i + 1 < (chunk_list l c).length),
      ((chunk_list l c).get ⟨i, Nat.lt_of_succ_lt hi⟩).length = c :=
  ⟨chunk_list_length l c, (chunk_list_ceil_bounds l c hc).1,
   (chunk_list_ceil_bounds l c hc).2, chunk_list_flatten c hc l,
   fun _ hi => chunk_list_get_len l c _ hc hi⟩

/-- Witness for C2 at the spec's example: 120 properties with chunk size
50 (3 chunks of sizes 50, 50, 20). -/
theorem c2_chunk_list_partition_witness :
    0 < 50 ∧
    ((chunk_list (List.range 120) 50).length = ((List.range 120).length + 50 - 1) / 50 ∧
     (List.range 120).length ≤ (chunk_list (List.range 120) 50).length * 50 ∧
     (chunk_list (List.range 120) 50).length * 50 < (List.range 120).length + 50 ∧
     (chunk_list (List.range 120) 50).flatten = List.range 120 ∧
     ∀ i (hi : i + 1 < (chunk_list (List.range 120) 50).length),
       ((chunk_list (List.range 120) 50).get ⟨i, Nat.lt_of_succ_lt hi⟩).length = 50) :=
  ⟨by decide, c2_chunk_list_partition (List.range 120) 50 (by decide)⟩

theorem mergeRec_none (m : RMap) (rec : ApiRec) (h : extractId rec = none) :
    mergeRec m rec = m := by
  simp [mergeRec, h]

theorem mergeRec_eq_hit (m : RMap) (rec : ApiRec) (j : Json) (e : MRec)
    (hx : extractId rec = some j) (hm : pyGet m j = some e) :
    mergeRec m rec = pySet m j ⟨e.id, pyUpdate e.properties (recProperties rec)⟩ := by
  have hmem : pyMem m j = true := by
    rw [pyMem_eq_isSome, hm]
    rfl
  simp [mergeRec, hx, hmem, hm]

theorem mergeRec_eq_new (m : RMap) (rec : ApiRec) (j : Json)
    (hx : extractId rec = some j) (hm : pyGet m j = none) :
    mergeRec m rec = pySet (pySet m j ⟨j, []⟩) j ⟨j, pyUpdate [] (recProperties rec)⟩ := by
  have hmem : pyMem m j = false := by
    rw [pyMem_eq_isSome, hm]
    rfl
  have hg : pyGet (pySet m j ⟨j, []⟩) j = some ⟨j, []⟩ := by
    rw [pyGet_pySet, if_pos rfl]
  simp [mergeRec, hx, hmem, hg]

theorem mergeRec_get_ne (m : RMap) (rec : ApiRec) (j i : Json)
    (hx : extractId rec = some j) (hij : i ≠ j) :
    pyGet (mergeRec m rec) i = pyGet m i := by
  cases hm : pyGet m j with
  | some e =>
    rw [mergeRec_eq_hit m rec j e hx hm, pyGet_pySet, if_neg hij]
  | none =>
    rw [mergeRec_eq_new m rec j hx hm, pyGet_pySet, if_neg hij, pyGet_pySet, if_neg hij]

theorem mergeRec_get_hit (m : RMap) (rec : ApiRec) (j : Json) (e : MRec)
    (hx : extractId rec = some j) (hm : pyGet m j = some e) :
    pyGet (mergeRec m rec) j = some ⟨e.id, pyUpdate e.properties (recProperties rec)⟩ := by
  rw [mergeRec_eq_hit m rec j e hx hm, pyGet_pySet, if_pos rfl]

theorem mergeRec_get_new (m : RMap) (rec : ApiRec) (j : Json)
    (hx : extractId rec = some j) (hm : pyGet m j = none) :
    pyGet (mergeRec m rec) j = some ⟨j, pyUpdate [] (recProperties rec)⟩ := by
  rw [mergeRec_eq_new m rec j hx hm, pyGet_pySet, if_pos rfl]

theorem propsFor_cons (i : Json) (r : ApiRec) (s : List ApiRec) :
    propsFor i (r :: s) =
      (if extractId r = some i then recProperties r else []) ++ propsFor i s := by
  unfold propsFor
  rw [List.filter_cons]
  by_cases h : extractId r = some i
  · simp [h]
  · simp [h]

theorem extractedIds_cons (r : ApiRec) (s : List ApiRec) :
    extractedIds (r :: s) = (extractId r).toList ++ extractedIds s := by
  unfold extractedIds
  rw [List.filterMap_cons]
  cases extractId r <;> simp

theorem mergeResults_cons (m : RMap) (r : ApiRec) (s : List ApiRec) :
    mergeResults m (r :: s) = mergeResults (mergeRec m r) s := rfl

theorem mergeResults_append (m : RMap) (a b : List ApiRec) :
    mergeResults m (a ++ b) = mergeResults (mergeResults m a) b := by
  unfold mergeResults
  rw [List.foldl_append]

theorem mergeResults_get_some (s : List ApiRec) : ∀ (m : RMap) (i : Json) (e : MRec),
    pyGet m i = some e →
    pyGet (mergeResults m s) i = some ⟨e.id, pyUpdate e.properties (propsFor i s)⟩ := by
  induction s with
  | nil =>
    intro m i e h
    simpa [mergeResults, propsFor, pyUpdate] using h
  | cons r s ih =>
    intro m i e h
    rw [mergeResults_cons, propsFor_cons]
    cases hx : extractId r with
    | none =>
      rw [mergeRec_none _ _ hx] at *
      rw [ih _ _ _ h]
      simp [hx]
    | some j =>
      by_cases hij : i = j
      · subst hij
        have h2 := mergeRec_get_hit m r i e hx h
        rw [ih _ _ _ h2]
        simp [← pyUpdate_append]
      · have h2 : pyGet (mergeRec m r) i = some e := by
          rw [mergeRec_get_ne m r j i hx hij]
          exact h
        rw [ih _ _ _ h2]
        have hji : ¬ (j = i) := fun he => hij he.symm
        simp [hji]

theorem mergeResults_get_none (s : List ApiRec) : ∀ (m : RMap) (i : Json),
    pyGet m i = none →
    pyGet (mergeResults m s) i =
      if i ∈ extractedIds s then some ⟨i, pyUpdate [] (propsFor i s)⟩ else none := by
  induction s with
  | nil =>
    intro m i h
    simpa [mergeResults, extractedIds] using h
  | cons r s ih =>
    intro m i h
    rw [mergeResults_cons, propsFor_cons, extractedIds_cons]
    cases hx : extractId r with
    | none =>
      rw [mergeRec_none _ _ hx]
      rw [ih _ _ h]
      simp [hx]
    | some j =>
      by_cases hij : i = j
      · subst hij
        have h2 := mergeRec_get_new m r i hx h
        rw [mergeResults_get_some s _ _ _ h2]
        simp [← pyUpdate_append]
      · have h2 : pyGet (mergeRec m r) i = none := by
          rw [mergeRec_get_ne m r j i hx hij]
          exact h
        rw [ih _ _ h2]
        have hji : ¬ (j = i) := fun he => hij he.symm
        simp [hji, hij]

/-- Invariant of `records_map`: every entry's stored id equals its key, and
keys are unique (it is a real dict). -/
def goodMap (m : RMap) : Prop :=
  (∀ p ∈ m, p.2.id = p.1) ∧ (m.map Prod.fst).Nodup

theorem pySet_subset {κ ν : Type} [DecidableEq κ] (d : PyDict κ ν) (k : κ) (v : ν) :
    ∀ q ∈ pySet d k v, q = (k, v) ∨ q ∈ d := by
  intro q hq
  unfold pySet at hq
  split at hq
  · rcases List.mem_map.mp hq with ⟨p, hp, he⟩
    by_cases hk : p.1 = k
    · left
      rw [← he, if_pos hk]
    · right
      rw [← he, if_neg hk]
      exact hp
  · rcases List.mem_append.mp hq with h | h
    · right
      exact h
    · left
      simpa using h

theorem pySet_keys {κ ν : Type} [DecidableEq κ] (d : PyDict κ ν) (k : κ) (v : ν) :
    (pySet d k v).map Prod.fst =
      if pyMem d k then d.map Prod.fst else d.map Prod.fst ++ [k] := by
  unfold pySet
  split
  · rw [List.map_map]
    apply List.map_congr_left
    intro p _
    by_cases hk : p.1 = k
    · simp [hk]
    · simp [hk]
  · simp

theorem goodMap_mergeRec (m : RMap) (rec : ApiRec) (h : goodMap m) :
    goodMap (mergeRec m rec) := by
  cases hx : extractId rec with
  | none => rw [mergeRec_none _ _ hx]; exact h
  | some j =>
    cases hm : pyGet m j with
    | some e =>
      rw [mergeRec_eq_hit m rec j e hx hm]
      have hkey : e.id = j := by
        unfold pyGet at hm
        rcases Option.map_eq_some'.mp hm with ⟨q, hq, he⟩
        have h1' := List.find?_some hq
        have h1 : q.1 = j := by simpa using h1'
        have h2 := h.1 q (List.mem_of_find?_eq_some hq)
        rw [← he, h2, h1]
      constructor
      · intro p hp
        rcases pySet_subset _ _ _ p hp with he | hmem
        · rw [he]
          simpa using hkey
      
        · exact h.1 p hmem
      · rw [pySet_keys]
        have hmem : pyMem m j = true := by
          rw [pyMem_eq_isSome, hm]
          rfl
        rw [if_pos hmem]
        exact h.2
    | none =>
      rw [mergeRec_eq_new m rec j hx hm]
      have hmem : pyMem m j = false := by
        rw [pyMem_eq_isSome, hm]
        rfl
      have hknotin : j ∉ m.map Prod.fst := by
        intro hc
        have := (pyGet_isSome_iff_mem m j).mpr hc
        rw [hm] at this
        cases this
      have hkeys1 : (pySet m j (⟨j, []⟩ : MRec)).map Prod.fst = m.map Prod.fst ++ [j] := by
        rw [pySet_keys, if_neg (by simp [hmem])]
      have hmem2 : pyMem (pySet m j (⟨j, []⟩ : MRec)) j = true := by
        rw [pyMem_eq_isSome, pyGet_pySet, if_pos rfl]
        rfl
      constructor
      · intro p hp
        rcases pySet_subset _ _ _ p hp with he | hmem3
        · rw [he]
        · rcases pySet_subset _ _ _ p hmem3 with he | hmem4
          · rw [he]
          · exact h.1 p hmem4
      · rw [pySet_keys, if_pos hmem2, hkeys1]
        refine List.Nodup.append h.2 (List.nodup_singleton j) ?_
        intro a ha hb
        rw [List.mem_singleton] at hb
        subst hb
        exact hknotin ha

theorem goodMap_mergeResults (s : List ApiRec) : ∀ m : RMap, goodMap m →
    goodMap (mergeResults m s) := by
  induction s with
  | nil => intro m h; exact h
  | cons r s ih =>
    intro m h
    rw [mergeResults_cons]
    exact ih _ (goodMap_mergeRec m r h)

theorem runChunk_wf : ∀ (t : List PageResp), wfTrace t = true → ∀ (m : RMap) (a : Option String),
    (runChunk m a t).halt = Halt.done ∧
    (runChunk m a t).map = mergeResults m (traceResults t) ∧
    (runChunk m a t).used = t.length := by
  intro t
  induction t with
  | nil => intro h; simp [wfTrace] at h
  | cons r t ih =>
    intro h m a
    cases r with
    | httpErr c => cases t <;> simp [wfTrace] at h
    | exn => cases t <;> simp [wfTrace] at h
    | ok p =>
      cases t with
      | nil =>
        have hnone : p.after = none := by
          simp [wfTrace] at h
          exact Option.isNone_iff_eq_none.mp (by simpa using h)
        simp [runChunk, hnone, traceResults, mergeResults]
      | cons r2 t2 =>
        have hsome : p.after.isSome := by
          simp only [wfTrace, Bool.and_eq_true] at h
          exact h.1
        have hwf2 : wfTrace (r2 :: t2) = true := by
          simp only [wfTrace, Bool.and_eq_true] at h
          exact h.2
        rcases Option.isSome_iff_exists.mp hsome with ⟨cursor, hc⟩
        have := ih hwf2 (mergeResults m p.results) (some cursor)
        simp only [runChunk, hc]
        refine ⟨this.1, ?_, by simp [this.2.2]⟩
        rw [this.2.1]
        rw [show traceResults (PageResp.ok p :: r2 :: t2)
            = p.results ++ traceResults (r2 :: t2) from by simp [traceResults]]
        rw [mergeResults_append]

theorem allResults_cons (t : List PageResp) (ts : List (List PageResp)) :
    allResults (t :: ts) = traceResults t ++ allResults ts := by
  simp [allResults]

theorem runChunks_wf : ∀ (prs : List (List String × List PageResp)),
    (∀ pr ∈ prs, wfTrace pr.2 = true) → ∀ m : RMap,
    (runChunks m prs).halt = Halt.done ∧
    (runChunks m prs).map = mergeResults m (allResults (prs.map Prod.snd)) := by
  intro prs
  induction prs with
  | nil =>
    intro _ m
    constructor
    · rfl
    · simp [runChunks, allResults, mergeResults]
  | cons pr rest ih =>
    intro h m
    have h1 := runChunk_wf pr.2 (h pr (List.mem_cons_self _ _)) m none
    have h2 := ih (fun q hq => h q (List.mem_cons_of_mem _ hq)) (runChunk m none pr.2).map
    have hrw : runChunks m (pr :: rest) =
        ⟨(runChunks (runChunk m none pr.2).map rest).map,
         (runChunk m none pr.2).reqs :: (runChunks (runChunk m none pr.2).map rest).chunkReqs,
         (runChunks (runChunk m none pr.2).map rest).halt⟩ := by
      rcases pr with ⟨ch, tr⟩
      simp [runChunks, h1.1]
    rw [hrw]
    refine ⟨h2.1, ?_⟩
    dsimp only
    rw [h2.2, h1.2.1, List.map_cons, allResults_cons, mergeResults_append]

/-- C1: for every run of the chunked fetch over a property set, given
per-chunk page-response sequences (one proper pagination sequence per
chunk), the fetch succeeds and returns merged records whose identifier set
equals the set of identifiers extracted from all results of all pages of
all chunks, and whose per-identifier field mapping is, field by field, the
last binding of that field in the processing-ordered concatenation of the
per-chunk property mappings returned for that identifier — so the union of
the per-chunk mappings, with the later-processed chunk winning on a
duplicated field name. -/
theorem c1_chunked_fetch_merge (props : List String) (traces : List (List PageResp))
    (hp : props ≠ [])
    (hlen : traces.length = (chunk_list props PROPERTIES_CHUNK_SIZE).length)
    (hwf : ∀ t ∈ traces, wfTrace t = true) :
    ∃ recs, fetch_object_data_with_chunked_properties props traces = Except.ok recs ∧
      (∀ i : Json, i ∈ recs.map MRec.id ↔ i ∈ extractedIds (allResults traces)) ∧
      ∀ r ∈ recs, ∀ f : String,
        pyGet r.properties f = lookupLast (propsFor r.id (allResults traces)) f := by
  have hz : ((chunk_list props PROPERTIES_CHUNK_SIZE).zip traces).map Prod.snd = traces :=
    List.map_snd_zip _ _ (le_of_eq hlen)
  have hwf2 : ∀ pr ∈ (chunk_list props PROPERTIES_CHUNK_SIZE).zip traces,
      wfTrace pr.2 = true := by
    intro pr hpr
    exact hwf pr.2 (List.of_mem_zip hpr).2
  obtain ⟨hhalt, hmap⟩ := runChunks_wf _ hwf2 []
  rw [hz] at hmap
  have hne : props.isEmpty = false := by
    cases props
    · exact absurd rfl hp
    · rfl
  have hgood : goodMap (runChunks [] ((chunk_list props PROPERTIES_CHUNK_SIZE).zip traces)).map := by
    rw [hmap]
    exact goodMap_mergeResults _ []
      ⟨fun p hp2 => absurd hp2 (List.not_mem_nil p), List.nodup_nil⟩
  have hfetch : fetch_object_data_with_chunked_properties props traces =
      Except.ok (((runChunks [] ((chunk_list props PROPERTIES_CHUNK_SIZE).zip traces)).map).map
        (fun p => p.2)) := by
    unfold fetch_object_data_with_chunked_properties
    rw [hne]
    simp [hhalt]
  refine ⟨_, hfetch, ?_, ?_⟩
  · intro i
    have hkeys : (((runChunks [] ((chunk_list props PROPERTIES_CHUNK_SIZE).zip traces)).map).map
        (fun p => p.2)).map MRec.id
        = ((runChunks [] ((chunk_list props PROPERTIES_CHUNK_SIZE).zip traces)).map).map Prod.fst := by
      rw [List.map_map]
      apply List.map_congr_left
      intro p hp2
      exact hgood.1 p hp2
    rw [hkeys, ← pyGet_isSome_iff_mem, hmap,
      mergeResults_get_none (allResults traces) [] i rfl]
    by_cases hmem : i ∈ extractedIds (allResults traces)
    · simp [hmem]
    · simp [hmem]
  · intro r hr f
    rcases List.mem_map.mp hr with ⟨p, hpM, he⟩
    have hget : pyGet (runChunks [] ((chunk_list props PROPERTIES_CHUNK_SIZE).zip traces)).map p.1
        = some p.2 :=
      pyGet_mem_nodup _ p.1 p.2 hgood.2 hpM
    rw [hmap, mergeResults_get_none (allResults traces) [] p.1 rfl] at hget
    by_cases hmem : p.1 ∈ extractedIds (allResults traces)
    · rw [if_pos hmem] at hget
      have hp2 : p.2 = ⟨p.1, pyUpdate [] (propsFor p.1 (allResults traces))⟩ :=
        (Option.some.inj hget).symm
      rw [← he, hp2]
      dsimp only
      rw [pyGet_pyUpdate]
      exact Option.or_none
    · rw [if_neg hmem] at hget
      cases hget

/-- Witness for C1: one property, one chunk, one page containing one
record. -/
theorem c1_chunked_fetch_merge_witness :
    (["p1"] : List String) ≠ [] ∧
    ([[PageResp.ok ⟨[[("id", Json.str "a"),
        ("properties", Json.obj [("p1", Json.str "v")])]], none⟩]]).length
      = (chunk_list ["p1"] PROPERTIES_CHUNK_SIZE).length ∧
    (∀ t ∈ [[PageResp.ok ⟨[[("id", Json.str "a"),
        ("properties", Json.obj [("p1", Json.str "v")])]], none⟩]], wfTrace t = true) ∧
    (∃ recs, fetch_object_data_with_chunked_properties ["p1"]
        [[PageResp.ok ⟨[[("id", Json.str "a"),
          ("properties", Json.obj [("p1", Json.str "v")])]], none⟩]] = Except.ok recs ∧
      (∀ i : Json, i ∈ recs.map MRec.id ↔
        i ∈ extractedIds (allResults [[PageResp.ok ⟨[[("id", Json.str "a"),
          ("properties", Json.obj [("p1", Json.str "v")])]], none⟩]])) ∧
      ∀ r ∈ recs, ∀ f : String,
        pyGet r.properties f = lookupLast
          (propsFor r.id (allResults [[PageResp.ok ⟨[[("id", Json.str "a"),
            ("properties", Json.obj [("p1", Json.str "v")])]], none⟩]])) f) :=
  ⟨by decide, by decide, by decide,
   c1_chunked_fetch_merge _ _ (by decide) (by decide) (by decide)⟩

/-- C9: a result record whose identifier cannot be determined contributes
nothing to `records_map`, no error is raised (the merge is total), and the
records before and after it in the same results stream are processed
exactly as if it were absent. -/
theorem c9_malformed_record_skipped (m : RMap) (xs ys : List ApiRec) (bad : ApiRec)
    (h : extractId bad = none) :
    mergeResults m (xs ++ bad :: ys) = mergeResults m (xs ++ ys) := by
  rw [mergeResults_append, mergeResults_append,
    show mergeResults (mergeResults m xs) (bad :: ys)
      = mergeResults (mergeRec (mergeResults m xs) bad) ys from rfl,
    mergeRec_none _ _ h]

/-- Witness for C9: a record with no identifier between two well-formed
records. -/
theorem c9_malformed_record_skipped_witness :
    extractId [("properties", Json.obj [("a", Json.num 1)])] = none ∧
    mergeResults [] ([[("id", Json.str "x")]]
        ++ [("properties", Json.obj [("a", Json.num 1)])] :: [[("id", Json.str "y")]]) =
      mergeResults [] ([[("id", Json.str "x")]] ++ [[("id", Json.str "y")]]) :=
  ⟨by decide, c9_malformed_record_skipped [] _ _ _ (by decide)⟩

/-- C10 counterexample: a record whose identifier fields are all falsy is
NOT always dropped. Here `id` and `objectId` are absent and `object_id` is
the falsy — but non-`None` — empty string, so the chained
`rec.get("id") or rec.get("objectId") or rec.get("object_id")` evaluates
to `""`, which fails the `is None` test: the record is merged under the
identifier `""` instead of being dropped as the claim states. -/
theorem c10_falsy_id_kept_cex :
    extractId [("object_id", Json.str "")] = some (Json.str "") ∧
    mergeResults [] [[("object_id", Json.str "")]] =
      [(Json.str "", ⟨Json.str "", []⟩)] := by decide

/-- C10 corrected: the identifier is the Python chain
`rec.get("id") or rec.get("objectId") or rec.get("object_id")` — the first
truthy value wins; when `id` and `objectId` are falsy or missing, the
result is exactly `rec.get("object_id")`, whatever it is (even falsy). A
record is dropped iff that chain yields `None`; any record with a
non-`None` identifier — falsy or not — is merged under it. -/
theorem c10_extract_id_semantics :
    (∀ (rec : ApiRec) (v : Json), pyGetN rec "id" = some v → pyTruthy v = true →
        extractId rec = some v) ∧
    (∀ rec : ApiRec,
        pyOrElse (pyGetN rec "id") (pyGetN rec "objectId") = none →
        extractId rec = pyGetN rec "object_id") ∧
    (∀ (rec : ApiRec) (m : RMap) (v : Json), extractId rec = some v →
        (pyGet (mergeRec m rec) v).isSome = true) ∧
    (∀ (rec : ApiRec) (m : RMap), extractId rec = none → mergeRec m rec = m) := by
  refine ⟨?_, ?_, ?_, ?_⟩
  · intro rec v h ht
    unfold extractId
    rw [h]
    simp [pyOrElse, ht]
  · intro rec h
    unfold extractId
    rw [h]
    rfl
  · intro rec m v h
    cases hm : pyGet m v with
    | some e => rw [mergeRec_get_hit m rec v e h hm]; rfl
    | none => rw [mergeRec_get_new m rec v h hm]; rfl
  · intro rec m h
    exact mergeRec_none m rec h

/-- Witness for C10's corrected statement: a record with `object_id: 0`
(falsy, non-`None`) is kept and merged under identifier `0`. -/
theorem c10_extract_id_semantics_witness :
    extractId [("object_id", Json.num 0)] = some (Json.num 0) ∧
    (pyGet (mergeRec [] [("object_id", Json.num 0)]) (Json.num 0)).isSome = true :=
  ⟨by decide, c10_extract_id_semantics.2.2.1 _ [] _ (by decide)⟩

/-- C5 counterexample: a non-`HTTPError` failure (network error, decode
error, retry exhaustion surfaced as a non-HTTP exception) does NOT
propagate out of `fetch_properties`: the blanket `except Exception`
handler returns an empty list. The claim says any failure other than
401/403/400 propagates to the caller. -/
theorem c5_network_error_swallowed_cex :
    fetch_properties PropsResp.exn = Except.ok [] ∧
    fetch_properties PropsResp.exn ≠ Except.error () :=
  ⟨rfl, fun h => Except.noConfusion h⟩

/-- C5 corrected: `fetch_properties` returns the parsed names on success;
returns an empty list (with a warning) on an `HTTPError` with status
401, 403 or 400 AND on every non-`HTTPError` failure (network errors
included); only an `HTTPError` with a different status (or with no
attached response) propagates, aborting that ObjectType. -/
theorem c5_fetch_properties_policy :
    (∀ c, isAuthCode c = true → fetch_properties (PropsResp.httpErr c) = Except.ok []) ∧
    fetch_properties (PropsResp.httpErr (some 400)) = Except.ok [] ∧
    fetch_properties PropsResp.exn = Except.ok [] ∧
    (∀ c, isAuthCode c = false → c ≠ some 400 →
      fetch_properties (PropsResp.httpErr c) = Except.error ()) ∧
    (∀ names, fetch_properties (PropsResp.ok names) = Except.ok names) := by
  refine ⟨?_, rfl, rfl, ?_, fun _ => rfl⟩
  · intro c h
    simp [fetch_properties, h]
  · intro c h1 h2
    simp [fetch_properties, h1, h2]

/-- Witness for C5's corrected statement: 401 yields an empty list, 500
(an `HTTPError` outside the handled statuses) propagates. -/
theorem c5_fetch_properties_policy_witness :
    isAuthCode (some 401) = true ∧
    fetch_properties (PropsResp.httpErr (some 401)) = Except.ok [] ∧
    isAuthCode (some 500) = false ∧ (some 500 : Option Nat) ≠ some 400 ∧
    fetch_properties (PropsResp.httpErr (some 500)) = Except.error () :=
  ⟨by decide, c5_fetch_properties_policy.1 _ (by decide), by decide, by decide,
   c5_fetch_properties_policy.2.2.2.1 _ (by decide) (by decide)⟩

/-- C7 counterexample: the loader's type inference is pandas-dtype based,
so a column of the Python strings "1", "2", "3" has `object` dtype and is
created as `String`, not integer as the claim states; likewise
["1", "2.5"] is `String`, not float. -/
theorem c7_string_column_cex :
    inferColumnType [PyCell.cStr "1", PyCell.cStr "2", PyCell.cStr "3"] = "String" ∧
    inferColumnType [PyCell.cStr "1", PyCell.cStr "2", PyCell.cStr "3"] ≠ "Int64" ∧
    inferColumnType [PyCell.cStr "1", PyCell.cStr "2.5"] = "String" ∧
    inferColumnType [PyCell.cStr "1", PyCell.cStr "abc"] = "String" := by decide

/-- C7 corrected: schema inference follows the pandas dtype of the column:
a non-empty column of Python ints all within 64-bit range is `Int64`; ints
mixed with missing values promote to float64 and yield `Float64`; any
column containing a string — numeric-looking or not — is `object` dtype
and yields `String` (the claim's `["1","2","3"] ↦ integer` and
`["1","2.5"] ↦ float` examples are therefore `String`). Inference is a
pure function of the column values, hence deterministic. -/
theorem c7_dtype_inference :
    (∀ (col : List PyCell) (s : String), PyCell.cStr s ∈ col →
      inferColumnType col = "String") ∧
    (∀ col : List PyCell, col ≠ [] → col.all cellIsInt64 = true →
      inferColumnType col = "Int64") ∧
    (∀ col : List PyCell, PyCell.cNone ∈ col → col.all cellIsInt64OrNone = true →
      col.any cellIsInt = true → inferColumnType col = "Float64") := by
  refine ⟨?_, ?_, ?_⟩
  · intro col s hm
    have hne : col.isEmpty = false := by
      cases col
      · cases hm
      · rfl
    have h1 : ¬ (col.all cellIsInt64 = true) := by
      intro hall
      have h2 := List.all_eq_true.mp hall _ hm
      simp [cellIsInt64] at h2
    have h2 : ¬ ((col.all cellIsInt64OrNone && col.any cellIsInt) = true) := by
      intro hc
      have h3 := (Bool.and_eq_true _ _).mp hc
      have h4 := List.all_eq_true.mp h3.1 _ hm
      simp [cellIsInt64OrNone] at h4
    have h3 : ¬ (col.all cellIsBool = true) := by
      intro hall
      have h4 := List.all_eq_true.mp hall _ hm
      simp [cellIsBool] at h4
    unfold inferColumnType inferDtype
    rw [hne, if_neg (by simp), if_neg h1, if_neg h2, if_neg h3]
    rfl
  · intro col hne hall
    have hne2 : col.isEmpty = false := by
      cases col
      · exact absurd rfl hne
      · rfl
    unfold inferColumnType inferDtype
    rw [hne2, if_neg (by simp), if_pos hall]
    rfl
  · intro col hmem hall hany
    have hne : col.isEmpty = false := by
      cases col
      · cases hmem
      · rfl
    have h1 : ¬ (col.all cellIsInt64 = true) := by
      intro hc
      have h2 := List.all_eq_true.mp hc _ hmem
      simp [cellIsInt64] at h2
    unfold inferColumnType inferDtype
    rw [hne, if_neg (by simp), if_neg h1, if_pos (by rw [hall, hany]; rfl)]
    rfl

/-- Witness for C7's corrected statement: an all-int column is `Int64`, an
int column with a missing value is `Float64`, a string cell forces
`String`. -/
theorem c7_dtype_inference_witness :
    inferColumnType [PyCell.cInt 1, PyCell.cInt 2] = "Int64" ∧
    inferColumnType [PyCell.cInt 1, PyCell.cNone] = "Float64" ∧
    inferColumnType [PyCell.cBool true, PyCell.cStr "x"] = "String" :=
  ⟨c7_dtype_inference.2.1 _ (by decide) (by decide),
   c7_dtype_inference.2.2 _ (by decide) (by decide) (by decide),
   c7_dtype_inference.1 _ "x" (by decide)⟩

theorem flattenRecord_eq (rec : MRec) :
    flattenRecord rec =
      pyUpdate [("id", rec.id)] (rec.properties.map (fun p => (p.1, flattenVal p.2))) := by
  unfold flattenRecord pyUpdate
  rw [List.foldl_map]

/-- C3 counterexample: a property literally named `"id"` overwrites the
identifier in the flattened row, so the row's `"id"` field is NOT the
record's identifier. -/
theorem c3_id_shadowing_cex :
    pyGet (flattenRecord ⟨Json.str "1", [("id", Json.str "X")]⟩) "id" = some (Json.str "X") ∧
    Json.str "X" ≠ Json.str "1" := by decide

/-- C3 corrected: provided no property is named `"id"` (and property keys
are unique, as they are in a Python dict), the flattened row maps `"id"`
to the record's identifier, maps every property key to its value processed
by the per-field rule (unwrap a sole-key `{"value": X}` mapping, JSON-dump
other mappings/lists, keep scalars), and maps nothing else — a pointwise
characterization, so the row does not depend on field processing order. A
property named `"id"` silently replaces the identifier column. -/
theorem c3_flatten_row (rec : MRec)
    (hnd : (rec.properties.map Prod.fst).Nodup)
    (hid : "id" ∉ rec.properties.map Prod.fst) :
    pyGet (flattenRecord rec) "id" = some rec.id ∧
    (∀ k v, (k, v) ∈ rec.properties → pyGet (flattenRecord rec) k = some (flattenVal v)) ∧
    (∀ k, k ≠ "id" → k ∉ rec.properties.map Prod.fst → pyGet (flattenRecord rec) k = none) := by
  have hkeys : (rec.properties.map (fun p => (p.1, flattenVal p.2))).map Prod.fst
      = rec.properties.map Prod.fst := by
    rw [List.map_map]
    rfl
  refine ⟨?_, ?_, ?_⟩
  · rw [flattenRecord_eq, pyGet_pyUpdate,
      lookupLast_eq_none _ _ (by rw [hkeys]; exact hid)]
    simp [pyGet]
  · intro k v hm
    rw [flattenRecord_eq, pyGet_pyUpdate,
      lookupLast_mem_nodup _ k (flattenVal v) (by rw [hkeys]; exact hnd)
        (List.mem_map.mpr ⟨(k, v), hm, rfl⟩)]
    rfl
  · intro k hk hkm
    rw [flattenRecord_eq, pyGet_pyUpdate,
      lookupLast_eq_none _ _ (by rw [hkeys]; exact hkm)]
    have : ¬ (("id" : String) = k) := fun e => hk e.symm
    simp [pyGet, this]

/-- Witness for C3's corrected statement: a record with one wrapped
property. -/
theorem c3_flatten_row_witness :
    (([("name", Json.obj [("value", Json.str "Bob")])] : PyDict String Json).map
      Prod.fst).Nodup ∧
    "id" ∉ ([("name", Json.obj [("value", Json.str "Bob")])] : PyDict String Json).map Prod.fst ∧
    (pyGet (flattenRecord ⟨Json.str "7", [("name", Json.obj [("value", Json.str "Bob")])]⟩) "id"
        = some (Json.str "7") ∧
      (∀ k v, (k, v) ∈ ([("name", Json.obj [("value", Json.str "Bob")])] : PyDict String Json) →
        pyGet (flattenRecord ⟨Json.str "7", [("name", Json.obj [("value", Json.str "Bob")])]⟩) k
          = some (flattenVal v)) ∧
      (∀ k, k ≠ "id" →
        k ∉ ([("name", Json.obj [("value", Json.str "Bob")])] : PyDict String Json).map Prod.fst →
        pyGet (flattenRecord ⟨Json.str "7", [("name", Json.obj [("value", Json.str "Bob")])]⟩) k
          = none)) :=
  ⟨by decide, by decide,
   c3_flatten_row ⟨Json.str "7", [("name", Json.obj [("value", Json.str "Bob")])]⟩
     (by decide) (by decide)⟩

theorem runChunk_fail (bad : PageResp) (junk : List PageResp) (hbad : isFailResp bad = true) :
    ∀ (okPages : List PageResp), (∀ r ∈ okPages, okWithCursor r = true) →
    ∀ (m : RMap) (a : Option String),
    (runChunk m a (okPages ++ bad :: junk)).halt =
      (if isAuthResp bad = true then Halt.auth else Halt.fatal) := by
  intro okPages
  induction okPages with
  | nil =>
    intro _ m a
    cases bad with
    | ok p => simp [isFailResp] at hbad
    | httpErr c =>
      by_cases hc : isAuthCode c = true
      · simp [runChunk, hc, isAuthResp]
      · simp [runChunk, hc, isAuthResp]
    | exn => simp [runChunk, isAuthResp]
  | cons r rest ih =>
    intro hok m a
    have hr := hok r (List.mem_cons_self _ _)
    cases r with
    | ok p =>
      rcases Option.isSome_iff_exists.mp (by simpa [okWithCursor] using hr) with ⟨cur, hc⟩
      simp only [List.cons_append, runChunk, hc]
      exact ih (fun q hq => hok q (List.mem_cons_of_mem _ hq)) _ _
    | httpErr c => simp [okWithCursor] at hr
    | exn => simp [okWithCursor] at hr

theorem runChunks_cons_done (pr : List String × List PageResp)
    (rest : List (List String × List PageResp)) (m : RMap)
    (h : (runChunk m none pr.2).halt = Halt.done) :
    runChunks m (pr :: rest) =
      ⟨(runChunks (runChunk m none pr.2).map rest).map,
       (runChunk m none pr.2).reqs :: (runChunks (runChunk m none pr.2).map rest).chunkReqs,
       (runChunks (runChunk m none pr.2).map rest).halt⟩ := by
  rcases pr with ⟨ch, tr⟩
  simp [runChunks, h]

theorem runChunks_append_halt : ∀ (a : List (List String × List PageResp)),
    (∀ pr ∈ a, wfTrace pr.2 = true) → ∀ (m : RMap) (b : List (List String × List PageResp)),
    (runChunks m (a ++ b)).halt = (runChunks (runChunks m a).map b).halt := by
  intro a
  induction a with
  | nil => intro _ m b; rfl
  | cons pr rest ih =>
    intro h m b
    have h1 := runChunk_wf pr.2 (h pr (List.mem_cons_self _ _)) m none
    rw [List.cons_append, runChunks_cons_done pr (rest ++ b) m h1.1]
    dsimp only
    rw [ih (fun q hq => h q (List.mem_cons_of_mem _ hq)) _ b]
    rw [runChunks_cons_done pr rest m h1.1]

/-- C6: during the chunked data fetch, if the pipeline completes some
chunks, pages through cursor-carrying pages of a later chunk, and then a
request fails, the whole fetch returns the empty record collection when
that failure is an HTTP 401/403 (authorization) error, and raises —
`Except.error`, propagating to the caller and aborting that ObjectType —
on any other failure (other HTTP error or non-HTTP exception). -/
theorem c6_data_fetch_error_policy (props : List String)
    (doneTraces : List (List PageResp)) (okPages junk : List PageResp) (bad : PageResp)
    (more : List (List PageResp))
    (hp : props ≠ [])
    (hlen : doneTraces.length < (chunk_list props PROPERTIES_CHUNK_SIZE).length)
    (hdone : ∀ t ∈ doneTraces, wfTrace t = true)
    (hok : ∀ r ∈ okPages, okWithCursor r = true)
    (hbad : isFailResp bad = true) :
    fetch_object_data_with_chunked_properties props
        (doneTraces ++ (okPages ++ bad :: junk) :: more) =
      (if isAuthResp bad = true then Except.ok [] else Except.error ()) := by
  have hdropne : (chunk_list props PROPERTIES_CHUNK_SIZE).drop doneTraces.length ≠ [] := by
    intro hc
    have h2 : ((chunk_list props PROPERTIES_CHUNK_SIZE).drop doneTraces.length).length
        = (chunk_list props PROPERTIES_CHUNK_SIZE).length - doneTraces.length :=
      List.length_drop _ _
    rw [hc] at h2
    simp at h2
    omega
  obtain ⟨c0, cs, hcs⟩ := List.exists_cons_of_ne_nil hdropne
  have htake : ((chunk_list props PROPERTIES_CHUNK_SIZE).take doneTraces.length).length
      = doneTraces.length := by
    rw [List.length_take]
    omega
  have hzip : (chunk_list props PROPERTIES_CHUNK_SIZE).zip
        (doneTraces ++ (okPages ++ bad :: junk) :: more)
      = ((chunk_list props PROPERTIES_CHUNK_SIZE).take doneTraces.length).zip doneTraces
        ++ (c0, okPages ++ bad :: junk) :: cs.zip more := by
    conv_lhs =>
      rw [show chunk_list props PROPERTIES_CHUNK_SIZE
          = (chunk_list props PROPERTIES_CHUNK_SIZE).take doneTraces.length ++ c0 :: cs from by
        rw [← hcs, List.take_append_drop]]
    rw [List.zip_append htake]
    rfl
  have hwfz : ∀ pr ∈ ((chunk_list props PROPERTIES_CHUNK_SIZE).take doneTraces.length).zip
      doneTraces, wfTrace pr.2 = true :=
    fun pr hpr => hdone pr.2 (List.of_mem_zip hpr).2
  have hfailhalt := runChunk_fail bad junk hbad okPages hok
    (runChunks [] (((chunk_list props PROPERTIES_CHUNK_SIZE).take doneTraces.length).zip
      doneTraces)).map none
  have hh : (runChunks [] ((chunk_list props PROPERTIES_CHUNK_SIZE).zip
        (doneTraces ++ (okPages ++ bad :: junk) :: more))).halt
      = (if isAuthResp bad = true then Halt.auth else Halt.fatal) := by
    rw [hzip, runChunks_append_halt _ hwfz []]
    by_cases hab : isAuthResp bad = true
    · rw [if_pos hab] at hfailhalt ⊢
      simp [runChunks, hfailhalt]
    · rw [if_neg hab] at hfailhalt ⊢
      simp [runChunks, hfailhalt]
  have hne : props.isEmpty = false := by
    cases props
    · exact absurd rfl hp
    · rfl
  unfold fetch_object_data_with_chunked_properties
  rw [hne]
  by_cases hab : isAuthResp bad = true
  · rw [if_pos hab] at hh
    simp [hh, hab]
  · rw [if_neg hab] at hh
    simp [hh, hab]

/-- Witness for C6: a single-chunk fetch whose first page request fails
with HTTP 500 raises; with HTTP 403 it returns the empty collection. -/
theorem c6_data_fetch_error_policy_witness :
    (["p1"] : List String) ≠ [] ∧
    ([] : List (List PageResp)).length < (chunk_list ["p1"] PROPERTIES_CHUNK_SIZE).length ∧
    fetch_object_data_with_chunked_properties ["p1"]
        ([] ++ ([] ++ PageResp.httpErr (some 500) :: []) :: []) =
      (if isAuthResp (PageResp.httpErr (some 500)) = true
        then Except.ok [] else Except.error ()) :=
  ⟨by decide, by decide,
   c6_data_fetch_error_policy ["p1"] [] [] [] (PageResp.httpErr (some 500)) []
     (by decide) (by decide) (by decide) (by decide) (by decide)⟩

theorem runChunk_stops (t : List PageResp) (hall : ∀ r ∈ t, isFailResp r = false) :
    ∀ (m : RMap) (a : Option String),
    (runChunk m a t).used = (match stopsAt t with | some i => i + 1 | none => t.length) ∧
    ((runChunk m a t).halt = Halt.done ↔ (stopsAt t).isSome = true) := by
  induction t with
  | nil =>
    intro m a
    exact ⟨rfl, by simp [runChunk, stopsAt]⟩
  | cons r t ih =>
    intro m a
    cases r with
    | httpErr c =>
      have h := hall _ (List.mem_cons_self _ _)
      simp [isFailResp] at h
    | exn =>
      have h := hall _ (List.mem_cons_self _ _)
      simp [isFailResp] at h
    | ok p =>
      cases hc : p.after with
      | some cur =>
        have iht := ih (fun q hq => hall q (List.mem_cons_of_mem _ hq))
          (mergeResults m p.results) (some cur)
        constructor
        · simp only [runChunk, hc, stopsAt, Option.isSome_some, if_pos]
          cases hs : stopsAt t with
          | none =>
            rw [hs] at iht
            rw [show (none : Option Nat).map (fun x => x + 1) = none from rfl]
            rw [iht.1]
            rfl
          | some i =>
            rw [hs] at iht
            rw [show (some i).map (fun x => x + 1) = some (i + 1) from rfl]
            rw [iht.1]
        · simp only [runChunk, hc, stopsAt, Option.isSome_some, if_pos]
          rw [iht.2]
          cases stopsAt t <;> simp
      | none =>
        constructor
        · simp [runChunk, hc, stopsAt]
        · simp [runChunk, hc, stopsAt]

theorem runChunk_reqs_head (t : List PageResp) (m : RMap) (a : Option String) :
    (runChunk m a t).reqs = [] ∨ ∃ tl, (runChunk m a t).reqs = a :: tl := by
  cases t with
  | nil => left; rfl
  | cons r t =>
    right
    cases r with
    | ok p =>
      cases hc : p.after with
      | some cur =>
        exact ⟨(runChunk (mergeResults m p.results) (some cur) t).reqs,
          by simp [runChunk, hc]⟩
      | none => exact ⟨[], by simp [runChunk, hc]⟩
    | httpErr c =>
      refine ⟨[], ?_⟩
      unfold runChunk
      split <;> rfl
    | exn => exact ⟨[], rfl⟩

theorem runChunks_cons_chunkReqs_mem (ch : List String) (tr : List PageResp)
    (rest : List (List String × List PageResp)) (m : RMap) :
    ∀ rs ∈ (runChunks m ((ch, tr) :: rest)).chunkReqs,
      rs = (runChunk m none tr).reqs ∨
      rs ∈ (runChunks (runChunk m none tr).map rest).chunkReqs := by
  intro rs hrs
  cases hh : (runChunk m none tr).halt with
  | done =>
    rw [runChunks_cons_done (ch, tr) rest m hh] at hrs
    dsimp only at hrs
    rcases List.mem_cons.mp hrs with he | hm2
    · exact Or.inl he
    · exact Or.inr hm2
  | outOfTrace =>
    simp only [runChunks, hh] at hrs
    left
    simpa using hrs
  | auth =>
    simp only [runChunks, hh] at hrs
    left
    simpa using hrs
  | fatal =>
    simp only [runChunks, hh] at hrs
    left
    simpa using hrs

theorem runChunks_chunkReqs : ∀ (prs : List (List String × List PageResp)) (m : RMap),
    ∀ rs ∈ (runChunks m prs).chunkReqs, rs = [] ∨ ∃ tl, rs = none :: tl := by
  intro prs
  induction prs with
  | nil =>
    intro m rs h
    exact absurd h (List.not_mem_nil rs)
  | cons pr rest ih =>
    intro m rs hrs
    rcases pr with ⟨ch, tr⟩
    rcases runChunks_cons_chunkReqs_mem ch tr rest m rs hrs with he | hm2
    · rw [he]
      exact runChunk_reqs_head tr m none
    · exact ih _ rs hm2

theorem cursorLoop_exact (cur : Nat → Option String) (n : Nat) (hn : cur n = none) :
    ∀ (fuel start : Nat), start ≤ n → n < start + fuel →
    (∀ i, start ≤ i → i < n → (cur i).isSome = true) →
    cursorLoop cur fuel start = some (n - start + 1) := by
  intro fuel
  induction fuel with
  | zero => intro start h1 h2 _; omega
  | succ fuel ih =>
    intro start h1 h2 hmid
    by_cases hs : start = n
    · subst hs
      simp [cursorLoop, hn]
    · have hlt : start < n := by omega
      have hsome := hmid start (le_refl _) hlt
      simp only [cursorLoop, hsome, if_pos]
      rw [ih (start + 1) (by omega) (by omega) (fun i hi1 hi2 => hmid i (by omega) hi2)]
      rw [show (some (n - (start + 1) + 1)).map (fun x => x + 1)
          = some (n - (start + 1) + 1 + 1) from rfl]
      exact congrArg some (by omega)

/-- C8: (i) the pagination loop's control depends only on the PRESENCE of
the continuation cursor: over any unbounded response stream — including
one whose pages repeat the same cursor value — the loop stops after
exactly `n + 1` pages as soon as the `(n+1)`-st page omits the cursor, for
every sufficiently large fuel bound, so it never loops indefinitely on a
repeated cursor; (ii) trace version: on a failure-free response sequence
the loop consumes pages exactly through the first cursor-omitting page
(all of them if none omits it), and completes the chunk iff such a page
occurs; (iii) every chunk's pagination starts with a request carrying no
cursor — the cursor is discarded before the next chunk begins. -/
theorem c8_pagination_termination :
    (∀ (cur : Nat → Option String) (n : Nat), cur n = none →
      (∀ i, i < n → (cur i).isSome = true) →
      ∀ fuel, n < fuel → cursorLoop cur fuel 0 = some (n + 1)) ∧
    (∀ (t : List PageResp) (m : RMap) (a : Option String),
      (∀ r ∈ t, isFailResp r = false) →
      (runChunk m a t).used = (match stopsAt t with | some i => i + 1 | none => t.length) ∧
      ((runChunk m a t).halt = Halt.done ↔ (stopsAt t).isSome = true)) ∧
    (∀ (prs : List (List String × List PageResp)) (m : RMap),
      ∀ rs ∈ (runChunks m prs).chunkReqs, rs = [] ∨ ∃ tl, rs = none :: tl) := by
  refine ⟨?_, ?_, ?_⟩
  · intro cur n hn hmid fuel hf
    have h := cursorLoop_exact cur n hn fuel 0 (by omega) (by omega)
      (fun i _ h2 => hmid i h2)
    simpa using h
  · intro t m a hall
    exact runChunk_stops t hall m a
  · intro prs m
    exact runChunks_chunkReqs prs m

/-- Witness for C8: a stream whose first two pages repeat the same cursor
value `"c"` and whose third page omits it — the loop stops after exactly
3 pages. -/
theorem c8_pagination_termination_witness :
    (fun i => if i < 2 then some "c" else none : Nat → Option String) 2 = none ∧
    (∀ i, i < 2 →
      ((fun i => if i < 2 then some "c" else none : Nat → Option String) i).isSome = true) ∧
    2 < 4 ∧
    cursorLoop (fun i => if i < 2 then some "c" else none) 4 0 = some (2 + 1) :=
  ⟨by decide, by decide, by decide,
   c8_pagination_termination.1 (fun i => if i < 2 then some "c" else none) 2
     (by decide) (by decide) 4 (by decide)⟩

theorem expectLit_exact : ∀ (pat l : List Char), expectLit pat (pat ++ l) = some l := by
  intro pat
  induction pat with
  | nil => intro l; rfl
  | cons c cs ih => intro l; simp [expectLit, ih]

theorem escStr_cons (c : Char) (cs : List Char) :
    escStr (c :: cs) = escChar c ++ escStr cs := by
  simp [escStr]

theorem hexVal_hexDig : ∀ m, m < 16 → hexVal (hexDig m) = some m := by decide

theorem parseStrBody_cons_other (c : Char) (l : List Char) (h1 : ¬ c = '"') (h2 : ¬ c = '\\') :
    parseStrBody (c :: l) = (parseStrBody l).map (fun p => (c :: p.1, p.2)) := by
  rw [parseStrBody]
  rw [if_neg h1, if_neg h2]

theorem parseStrBody_u (hi lo : Nat) (hhi : hi < 16) (hlo : lo < 16) (l : List Char) :
    parseStrBody ('\\' :: 'u' :: '0' :: '0' :: hexDig hi :: hexDig lo :: l)
      = (parseStrBody l).map
          (fun p => (Char.ofNat (((0 * 16 + 0) * 16 + hi) * 16 + lo) :: p.1, p.2)) := by
  rw [parseStrBody]
  rw [if_neg (by decide), if_pos rfl]
  rw [parseEsc]
  rw [if_pos rfl]
  rw [show hexVal '0' = some 0 from by decide, hexVal_hexDig hi hhi, hexVal_hexDig lo hlo]

theorem parseStrBody_escStr : ∀ (s rest : List Char),
    parseStrBody (escStr s ++ '"' :: rest) = some (s, rest) := by
  intro s
  induction s with
  | nil => intro rest; simp [escStr, parseStrBody]
  | cons c cs ih =>
    intro rest
    rw [escStr_cons, List.append_assoc]
    by_cases h1 : c = '"'
    · subst h1
      simp [escChar, parseStrBody, parseEsc, unescShort, ih]
    · by_cases h2 : c = '\\'
      · subst h2
        simp [escChar, parseStrBody, parseEsc, unescShort, ih]
      · by_cases h3 : c = '\n'
        · subst h3
          simp [escChar, parseStrBody, parseEsc, unescShort, ih]
        · by_cases h4 : c = '\t'
          · subst h4
            simp [escChar, parseStrBody, parseEsc, unescShort, ih]
          · by_cases h5 : c = '\r'
            · subst h5
              simp [escChar, parseStrBody, parseEsc, unescShort, ih]
            · by_cases h6 : c = Char.ofNat 8
              · subst h6
                simp [escChar, parseStrBody, parseEsc, unescShort, ih]
              · by_cases h7 : c = Char.ofNat 12
                · subst h7
                  simp [escChar, parseStrBody, parseEsc, unescShort, ih]
                · by_cases h8 : c.toNat < 32
                  · rw [show escChar c
                        = ['\\', 'u', '0', '0', hexDig (c.toNat / 16), hexDig (c.toNat % 16)]
                        from by simp [escChar, h1, h2, h3, h4, h5, h6, h7, h8]]
                    simp only [List.cons_append, List.nil_append]
                    rw [parseStrBody_u (c.toNat / 16) (c.toNat % 16) (by omega) (by omega)]
                    rw [ih]
                    rw [show ((0 * 16 + 0) * 16 + c.toNat / 16) * 16 + c.toNat % 16
                        = c.toNat from by omega]
                    rw [Char.ofNat_toNat]
                    rfl
                  · rw [show escChar c = [c] from by
                      simp [escChar, h1, h2, h3, h4, h5, h6, h7, h8]]
                    simp only [List.cons_append, List.nil_append]
                    rw [parseStrBody_cons_other c _ h1 h2, ih]
                    rfl

theorem isDigitCh_digit : ∀ m, m < 10 → isDigitCh (Char.ofNat (48 + m)) = true := by decide

theorem toNat_digit : ∀ m, m < 10 → (Char.ofNat (48 + m)).toNat = 48 + m := by decide

theorem natChars_ne_nil (n : Nat) : natChars n ≠ [] := by
  rw [natChars]
  split
  · simp
  · simp

theorem natChars_digits : ∀ n, ∀ c ∈ natChars n, isDigitCh c = true := by
  intro n
  induction n using Nat.strong_induction_on with
  | _ n ih =>
    intro c hc
    rw [natChars] at hc
    split at hc
    · rename_i h
      rw [List.mem_singleton.mp hc]
      exact isDigitCh_digit n h
    · rename_i h
      rcases List.mem_append.mp hc with h2 | h2
      · exact ih (n / 10) (Nat.div_lt_self (by omega) (by omega)) c h2
      · rw [List.mem_singleton.mp h2]
        exact isDigitCh_digit (n % 10) (by omega)

theorem takeDigits_exact : ∀ (ds rest : List Char), (∀ c ∈ ds, isDigitCh c = true) →
    noDigitHead rest = true →
    takeDigits (ds ++ rest) = (ds.map (fun c => c.toNat - 48), rest) := by
  intro ds
  induction ds with
  | nil =>
    intro rest _ hr
    cases rest with
    | nil => rfl
    | cons c r =>
      have hc : isDigitCh c = false := by simpa [noDigitHead] using hr
      simp [takeDigits, hc]
  | cons d ds ih =>
    intro rest hds hr
    have hd : isDigitCh d = true := hds d (List.mem_cons_self _ _)
    simp only [List.cons_append]
    rw [takeDigits]
    rw [if_pos hd]
    rw [ih rest (fun c hc => hds c (List.mem_cons_of_mem _ hc)) hr]
    rfl

theorem digitsToNat_append_one (a : List Nat) (d : Nat) :
    digitsToNat (a ++ [d]) = digitsToNat a * 10 + d := by
  unfold digitsToNat
  rw [List.foldl_append]
  rfl

theorem digitsToNat_natChars : ∀ n, digitsToNat ((natChars n).map (fun c => c.toNat - 48)) = n := by
  intro n
  induction n using Nat.strong_induction_on with
  | _ n ih =>
    rw [natChars]
    split
    · rename_i h
      simp [digitsToNat, toNat_digit n h]
    · rename_i h
      rw [List.map_append]
      simp only [List.map_cons, List.map_nil]
      rw [digitsToNat_append_one, ih (n / 10) (Nat.div_lt_self (by omega) (by omega)),
        toNat_digit (n % 10) (by omega)]
      omega

theorem parseIntToken_intChars : ∀ (i : Int) (rest : List Char), noDigitHead rest = true →
    parseIntToken (intChars i ++ rest) = some (i, rest) := by
  intro i rest hr
  by_cases hneg : i < 0
  · rw [show intChars i = '-' :: natChars i.natAbs from by simp [intChars, hneg]]
    have htd := takeDigits_exact (natChars i.natAbs) rest (natChars_digits _) hr
    have hne : ((natChars i.natAbs).map (fun c => c.toNat - 48)).isEmpty = false := by
      cases hcc : natChars i.natAbs with
      | nil => exact absurd hcc (natChars_ne_nil _)
      | cons a l => simp [hcc]
    simp only [List.cons_append, parseIntToken, if_pos rfl, htd, hne]
    rw [digitsToNat_natChars]
    have hv : -(i.natAbs : Int) = i := by omega
    rw [hv]
    simp
  · rcases hcc : natChars i.toNat with _ | ⟨d, ds⟩
    · exact absurd hcc (natChars_ne_nil _)
    · have hd : isDigitCh d = true := by
        apply natChars_digits i.toNat d
        rw [hcc]
        exact List.mem_cons_self _ _
      have hdm : ¬ (d = '-') := by
        intro he
        rw [he] at hd
        exact absurd hd (by decide)
      have hi2 : intChars i = natChars i.toNat := by simp [intChars, hneg]
      have htd := takeDigits_exact (natChars i.toNat) rest (natChars_digits _) hr
      have hne : ((natChars i.toNat).map (fun c => c.toNat - 48)).isEmpty = false := by
        rw [hcc]
        simp
      rw [hi2, hcc, List.cons_append, parseIntToken, if_neg hdm]
      rw [show d :: (ds ++ rest) = (d :: ds) ++ rest from rfl, ← hcc, htd]
      simp only [hne]
      rw [digitsToNat_natChars]
      have hv : (i.toNat : Int) = i := by omega
      rw [hv]
      simp

theorem skipWs_cons_not_ws (c : Char) (l : List Char) (h : isWsCh c = false) :
    skipWs (c :: l) = c :: l := by
  simp [skipWs, List.dropWhile_cons, h]

theorem skipWs_append_ws (w l : List Char) (hw : ∀ c ∈ w, isWsCh c = true) :
    skipWs (w ++ l) = skipWs l := by
  induction w with
  | nil => rfl
  | cons c w ih =>
    simp only [List.cons_append, skipWs, List.dropWhile_cons,
      hw c (List.mem_cons_self _ _), if_pos]
    exact ih (fun c hc => hw c (List.mem_cons_of_mem _ hc))

theorem parseVal_ws (fuel : Nat) (w l : List Char) (hw : ∀ c ∈ w, isWsCh c = true) :
    parseVal fuel (w ++ l) = parseVal fuel l := by
  cases fuel with
  | zero => rfl
  | succ f =>
    simp only [parseVal]
    rw [skipWs_append_ws w l hw]

theorem parseItemList_ws (fuel : Nat) (w l : List Char) (hw : ∀ c ∈ w, isWsCh c = true) :
    parseItemList fuel (w ++ l) = parseItemList fuel l := by
  cases fuel with
  | zero => rfl
  | succ f =>
    simp only [parseItemList]
    rw [parseVal_ws f w l hw]

theorem parseFieldList_ws (fuel : Nat) (w l : List Char) (hw : ∀ c ∈ w, isWsCh c = true) :
    parseFieldList fuel (w ++ l) = parseFieldList fuel l := by
  cases fuel with
  | zero => rfl
  | succ f =>
    simp only [parseFieldList]
    rw [skipWs_append_ws w l hw]

theorem digit_not_special (c : Char) (h : isDigitCh c = true) :
    isWsCh c = false ∧ c ≠ ']' ∧ c ≠ '}' := by
  have hne : ∀ x : Char, isDigitCh x = false → c ≠ x := by
    intro x hx he
    rw [he, hx] at h
    cases h
  refine ⟨?_, hne ']' (by decide), hne '}' (by decide)⟩
  have h1 := hne ' ' (by decide)
  have h2 := hne '\n' (by decide)
  have h3 := hne '\t' (by decide)
  have h4 := hne '\r' (by decide)
  simp [isWsCh, h1, h2, h3, h4]

theorem dumpVal_head (v : Json) :
    ∃ c cs, dumpVal v = c :: cs ∧ isWsCh c = false ∧ c ≠ ']' ∧ c ≠ '}' := by
  have atom : ∀ (c0 : Char) (t : List Char), isWsCh c0 = false → c0 ≠ ']' → c0 ≠ '}' →
      ∃ c cs, (c0 :: t : List Char) = c :: cs ∧ isWsCh c = false ∧ c ≠ ']' ∧ c ≠ '}' :=
    fun c0 t h1 h2 h3 => ⟨c0, t, rfl, h1, h2, h3⟩
  cases v with
  | null => exact atom 'n' _ (by decide) (by decide) (by decide)
  | bool b =>
    cases b with
    | true => exact atom 't' _ (by decide) (by decide) (by decide)
    | false => exact atom 'f' _ (by decide) (by decide) (by decide)
  | num i =>
    by_cases hneg : i < 0
    · refine ⟨'-', natChars i.natAbs, ?_, by decide, by decide, by decide⟩
      simp [dumpVal, intChars, hneg]
    · rcases hcc : natChars i.toNat with _ | ⟨d, ds⟩
      · exact absurd hcc (natChars_ne_nil _)
      · have hd : isDigitCh d = true := by
          apply natChars_digits i.toNat d
          rw [hcc]
          exact List.mem_cons_self _ _
        have hp := digit_not_special d hd
        refine ⟨d, ds, ?_, hp.1, hp.2.1, hp.2.2⟩
        simp [dumpVal, intChars, hneg, hcc]
  | str s => exact atom '"' _ (by decide) (by decide) (by decide)
  | arr xs => exact atom '[' _ (by decide) (by decide) (by decide)
  | obj fs => exact atom '{' _ (by decide) (by decide) (by decide)

theorem dumpElems_cons_head (x : Json) (xs : List Json) :
    ∃ t, dumpElems (x :: xs) = dumpVal x ++ t := by
  cases xs with
  | nil => exact ⟨[], (List.append_nil _).symm⟩
  | cons y ys => exact ⟨_, rfl⟩

theorem dumpFields_cons_head (kv : String × Json) (fs : List (String × Json)) :
    ∃ t, dumpFields (kv :: fs) = '"' :: t := by
  rcases kv with ⟨k, v⟩
  cases fs with
  | nil => exact ⟨_, rfl⟩
  | cons f fs => exact ⟨_, rfl⟩

theorem parseVal_succ (f : Nat) (input : List Char) :
    parseVal (f + 1) input =
      match skipWs input with
      | [] => none
      | c :: rest =>
        if c = 'n' then (expectLit ['u', 'l', 'l'] rest).map (fun r => (Json.null, r))
        else if c = 't' then (expectLit ['r', 'u', 'e'] rest).map (fun r => (Json.bool true, r))
        else if c = 'f' then (expectLit ['a', 'l', 's', 'e'] rest).map (fun r => (Json.bool false, r))
        else if c = '"' then (parseStrBody rest).map (fun p => (Json.str (String.mk p.1), p.2))
        else if c = '[' then
          let r0 := skipWs rest
          if r0.head? = some ']' then some (Json.arr [], r0.tail)
          else (parseItemList f r0).map (fun p => (Json.arr p.1, p.2))
        else if c = '{' then
          let r0 := skipWs rest
          if r0.head? = some '}' then some (Json.obj [], r0.tail)
          else (parseFieldList f r0).map (fun p => (Json.obj p.1, p.2))
        else if c = '-' || isDigitCh c then
          (parseIntToken (c :: rest)).map (fun p => (Json.num p.1, p.2))
        else none := rfl

theorem fsize_pos : ∀ v : Json, 1 ≤ fsize v := by
  intro v
  cases v <;> simp [fsize]

theorem fsizeElems_pos (x : Json) (xs : List Json) : 1 ≤ fsizeElems (x :: xs) := by
  cases xs <;> simp [fsizeElems]

theorem fsizeFields_pos (kv : String × Json) (fs : List (String × Json)) :
    1 ≤ fsizeFields (kv :: fs) := by
  rcases kv with ⟨k, v⟩
  cases fs <;> simp [fsizeFields]

theorem rtNull (rest : List Char) (f : Nat) :
    parseVal (f + 1) (dumpVal .null ++ rest) = some (.null, rest) := by
  simp only [dumpVal, List.cons_append, List.nil_append]
  rw [parseVal_succ, skipWs_cons_not_ws _ _ (by decide)]
  dsimp only
  rw [if_pos rfl, show ('u' :: 'l' :: 'l' :: rest) = ['u', 'l', 'l'] ++ rest from rfl,
    expectLit_exact]
  rfl

mutual
theorem rtVal : ∀ (v : Json) (rest : List Char) (fuel : Nat), fsize v ≤ fuel →
    (match v with | .num _ => noDigitHead rest = true | _ => True) →
    parseVal fuel (dumpVal v ++ rest) = some (v, rest)
  | .null, rest, fuel, hf, _ => by
      obtain ⟨f, rfl⟩ : ∃ f, fuel = f + 1 := ⟨fuel - 1, by simp [fsize] at hf; omega⟩
      exact rtNull rest f
  | .bool true, rest, fuel, hf, _ => by
      obtain ⟨f, rfl⟩ : ∃ f, fuel = f + 1 := ⟨fuel - 1, by simp [fsize] at hf; omega⟩
      simp only [dumpVal, List.cons_append, List.nil_append]
      rw [parseVal_succ, skipWs_cons_not_ws _ _ (by decide)]
      dsimp only
      rw [if_neg (by decide), if_pos rfl,
        show ('r' :: 'u' :: 'e' :: rest) = ['r', 'u', 'e'] ++ rest from rfl, expectLit_exact]
      rfl
  | .bool false, rest, fuel, hf, _ => by
      obtain ⟨f, rfl⟩ : ∃ f, fuel = f + 1 := ⟨fuel - 1, by simp [fsize] at hf; omega⟩
      simp only [dumpVal, List.cons_append, List.nil_append]
      rw [parseVal_succ, skipWs_cons_not_ws _ _ (by decide)]
      dsimp only
      rw [if_neg (by decide), if_neg (by decide), if_pos rfl,
        show ('a' :: 'l' :: 's' :: 'e' :: rest) = ['a', 'l', 's', 'e'] ++ rest from rfl,
        expectLit_exact]
      rfl
  | .str s, rest, fuel, hf, _ => by
      obtain ⟨f, rfl⟩ : ∃ f, fuel = f + 1 := ⟨fuel - 1, by simp [fsize] at hf; omega⟩
      simp only [dumpVal]
      rw [show ('"' :: escStr s.data ++ ['"']) ++ rest
          = '"' :: (escStr s.data ++ '"' :: rest) from by simp]
      rw [parseVal_succ, skipWs_cons_not_ws _ _ (by decide)]
      dsimp only
      rw [if_neg (by decide), if_neg (by decide), if_neg (by decide), if_pos rfl,
        parseStrBody_escStr]
      rfl
  | .num i, rest, fuel, hf, hg => by
      obtain ⟨f, rfl⟩ : ∃ f, fuel = f + 1 := ⟨fuel - 1, by simp [fsize] at hf; omega⟩
      simp only [dumpVal]
      rcases hin : intChars i with _ | ⟨c, cs⟩
      · exfalso
        by_cases hneg : i < 0
        · rw [intChars, if_pos hneg] at hin
          cases hin
        · rw [intChars, if_neg hneg] at hin
          exact natChars_ne_nil _ hin
      · have hcprop : c = '-' ∨ isDigitCh c = true := by
          by_cases hneg : i < 0
          · rw [intChars, if_pos hneg] at hin
            exact Or.inl (List.cons.inj hin).1.symm
          · rw [intChars, if_neg hneg] at hin
            refine Or.inr (natChars_digits i.toNat c ?_)
            rw [hin]
            exact List.mem_cons_self _ _
        have hne : ∀ x : Char, (¬ x = '-') → isDigitCh x = false → c ≠ x := by
          intro x hx1 hx2 he
          rcases hcprop with h | h
          · rw [he] at h
            exact hx1 h
          · rw [he, hx2] at h
            cases h
        have hws : isWsCh c = false := by
          rcases hcprop with h | h
          · rw [h]
            decide
          · exact (digit_not_special c h).1
        rw [List.cons_append, parseVal_succ, skipWs_cons_not_ws _ _ hws]
        dsimp only
        rw [if_neg (hne 'n' (by decide) (by decide)),
          if_neg (hne 't' (by decide) (by decide)),
          if_neg (hne 'f' (by decide) (by decide)),
          if_neg (hne '"' (by decide) (by decide)),
          if_neg (hne '[' (by decide) (by decide)),
          if_neg (hne '{' (by decide) (by decide))]
        have hcond : (c = '-' || isDigitCh c) = true := by
          rcases hcprop with h | h
          · simp [h]
          · simp [h]
        rw [if_pos hcond]
        rw [show c :: (cs ++ rest) = (c :: cs) ++ rest from rfl, ← hin,
          parseIntToken_intChars i rest hg]
        rfl
  | .arr [], rest, fuel, hf, _ => by
      obtain ⟨f, rfl⟩ : ∃ f, fuel = f + 1 := ⟨fuel - 1, by simp [fsize, fsizeElems] at hf; omega⟩
      simp only [dumpVal, dumpElems, List.nil_append, List.cons_append]
      rw [parseVal_succ, skipWs_cons_not_ws _ _ (by decide)]
      dsimp only
      rw [if_neg (by decide), if_neg (by decide), if_neg (by decide), if_neg (by decide),
        if_pos rfl]
      rw [skipWs_cons_not_ws _ _ (by decide)]
      simp
  | .arr (x :: xs), rest, fuel, hf, _ => by
      obtain ⟨f, rfl⟩ : ∃ f, fuel = f + 1 :=
        ⟨fuel - 1, by have := fsize_pos (.arr (x :: xs)); omega⟩
      simp only [dumpVal]
      rw [show ('[' :: dumpElems (x :: xs) ++ [']']) ++ rest
          = '[' :: (dumpElems (x :: xs) ++ ']' :: rest) from by simp]
      rw [parseVal_succ, skipWs_cons_not_ws _ _ (by decide)]
      dsimp only
      rw [if_neg (by decide), if_neg (by decide), if_neg (by decide), if_neg (by decide),
        if_pos rfl]
      rcases dumpElems_cons_head x xs with ⟨t, ht⟩
      rcases dumpVal_head x with ⟨c0, cs0, hx, hxw, hxb, _⟩
      have hshape : dumpElems (x :: xs) ++ ']' :: rest
          = c0 :: (cs0 ++ t ++ ']' :: rest) := by
        rw [ht, hx]
        simp
      rw [hshape, skipWs_cons_not_ws _ _ hxw, ← hshape]
      have hhead : (dumpElems (x :: xs) ++ ']' :: rest).head? ≠ some ']' := by
        rw [hshape]
        simp [hxb]
      rw [if_neg hhead]
      rw [rtElems x xs rest f (by
        simp only [fsize] at hf
        omega)]
      rfl
  | .obj [], rest, fuel, hf, _ => by
      obtain ⟨f, rfl⟩ : ∃ f, fuel = f + 1 :=
        ⟨fuel - 1, by simp [fsize, fsizeFields] at hf; omega⟩
      simp only [dumpVal, dumpFields, List.nil_append, List.cons_append]
      rw [parseVal_succ, skipWs_cons_not_ws _ _ (by decide)]
      dsimp only
      rw [if_neg (by decide), if_neg (by decide), if_neg (by decide), if_neg (by decide),
        if_neg (by decide), if_pos rfl]
      rw [skipWs_cons_not_ws _ _ (by decide)]
      simp
  | .obj (kv :: fs), rest, fuel, hf, _ => by
      obtain ⟨f, rfl⟩ : ∃ f, fuel = f + 1 :=
        ⟨fuel - 1, by have := fsize_pos (.obj (kv :: fs)); omega⟩
      simp only [dumpVal]
      rw [show ('{' :: dumpFields (kv :: fs) ++ ['}']) ++ rest
          = '{' :: (dumpFields (kv :: fs) ++ '}' :: rest) from by simp]
      rw [parseVal_succ, skipWs_cons_not_ws _ _ (by decide)]
      dsimp only
      rw [if_neg (by decide), if_neg (by decide), if_neg (by decide), if_neg (by decide),
        if_neg (by decide), if_pos rfl]
      rcases dumpFields_cons_head kv fs with ⟨t, ht⟩
      have hshape : dumpFields (kv :: fs) ++ '}' :: rest = '"' :: (t ++ '}' :: rest) := by
        rw [ht]
        simp
      rw [hshape, skipWs_cons_not_ws _ _ (by decide), ← hshape]
      have hhead : (dumpFields (kv :: fs) ++ '}' :: rest).head? ≠ some '}' := by
        rw [hshape]
        simp
      rw [if_neg hhead]
      rw [rtFields kv fs rest f (by
        simp only [fsize] at hf
        omega)]
      rfl
termination_by v _ _ _ _ => sizeOf v

theorem rtElems : ∀ (x : Json) (xs : List Json) (rest : List Char) (fuel : Nat),
    fsizeElems (x :: xs) ≤ fuel →
    parseItemList fuel (dumpElems (x :: xs) ++ ']' :: rest) = some (x :: xs, rest)
  | x, [], rest, fuel, hf => by
      obtain ⟨f, rfl⟩ : ∃ f, fuel = f + 1 := ⟨fuel - 1, by have := fsizeElems_pos x []; omega⟩
      simp only [dumpElems]
      rw [parseItemList]
      rw [rtVal x (']' :: rest) f (by simp [fsizeElems] at hf; omega)
        (by cases x <;> simp [noDigitHead] <;> decide)]
      dsimp only
      rw [skipWs_cons_not_ws _ _ (by decide)]
      simp
  | x, y :: ys, rest, fuel, hf => by
      obtain ⟨f, rfl⟩ : ∃ f, fuel = f + 1 :=
        ⟨fuel - 1, by have := fsizeElems_pos x (y :: ys); omega⟩
      simp only [dumpElems]
      rw [show (dumpVal x ++ ',' :: ' ' :: dumpElems (y :: ys)) ++ ']' :: rest
          = dumpVal x ++ ',' :: ' ' :: (dumpElems (y :: ys) ++ ']' :: rest) from by simp]
      rw [parseItemList]
      rw [rtVal x _ f (by simp only [fsizeElems] at hf; omega)
        (by cases x <;> simp [noDigitHead] <;> decide)]
      dsimp only
      rw [skipWs_cons_not_ws _ _ (by decide)]
      simp only [List.head?_cons, List.tail_cons]
      rw [if_pos trivial]
      rw [show (' ' :: (dumpElems (y :: ys) ++ ']' :: rest))
          = [' '] ++ (dumpElems (y :: ys) ++ ']' :: rest) from rfl]
      rw [parseItemList_ws f [' '] _ (by intro c hc; simp at hc; rw [hc]; rfl)]
      rw [rtElems y ys rest f (by simp only [fsizeElems] at hf; omega)]
      rfl
termination_by x xs _ _ _ => sizeOf x + sizeOf xs

theorem rtFields : ∀ (kv : String × Json) (fs : List (String × Json)) (rest : List Char)
    (fuel : Nat), fsizeFields (kv :: fs) ≤ fuel →
    parseFieldList fuel (dumpFields (kv :: fs) ++ '}' :: rest) = some (kv :: fs, rest)
  | (k, v), [], rest, fuel, hf => by
      obtain ⟨f, rfl⟩ : ∃ f, fuel = f + 1 :=
        ⟨fuel - 1, by have := fsizeFields_pos (k, v) []; omega⟩
      simp only [dumpFields]
      rw [show ('"' :: escStr k.data ++ '"' :: ':' :: ' ' :: dumpVal v) ++ '}' :: rest
          = '"' :: (escStr k.data ++ '"' :: (':' :: ' ' :: (dumpVal v ++ '}' :: rest)))
          from by simp]
      rw [parseFieldList]
      dsimp only
      rw [skipWs_cons_not_ws _ _ (by decide)]
      simp only [List.head?_cons, List.tail_cons]
      rw [if_pos trivial]
      rw [parseStrBody_escStr]
      dsimp only
      rw [skipWs_cons_not_ws _ _ (by decide)]
      simp only [List.head?_cons, List.tail_cons]
      rw [if_pos trivial]
      rw [show (' ' :: (dumpVal v ++ '}' :: rest)) = [' '] ++ (dumpVal v ++ '}' :: rest)
        from rfl]
      rw [parseVal_ws f [' '] _ (by intro c hc; simp at hc; rw [hc]; rfl)]
      rw [rtVal v ('}' :: rest) f (by simp [fsizeFields] at hf; omega)
        (by cases v <;> simp [noDigitHead] <;> decide)]
      dsimp only
      rw [skipWs_cons_not_ws _ _ (by decide)]
      simp
  | (k, v), f2 :: fs, rest, fuel, hf => by
      obtain ⟨f, rfl⟩ : ∃ f, fuel = f + 1 :=
        ⟨fuel - 1, by have := fsizeFields_pos (k, v) (f2 :: fs); omega⟩
      simp only [dumpFields]
      rw [show ('"' :: escStr k.data ++ '"' :: ':' :: ' ' :: dumpVal v
            ++ ',' :: ' ' :: dumpFields (f2 :: fs)) ++ '}' :: rest
          = '"' :: (escStr k.data ++ '"' :: (':' :: ' ' :: (dumpVal v
            ++ ',' :: ' ' :: (dumpFields (f2 :: fs) ++ '}' :: rest)))) from by simp]
      rw [parseFieldList]
      dsimp only
      rw [skipWs_cons_not_ws _ _ (by decide)]
      simp only [List.head?_cons, List.tail_cons]
      rw [if_pos trivial]
      rw [parseStrBody_escStr]
      dsimp only
      rw [skipWs_cons_not_ws _ _ (by decide)]
      simp only [List.head?_cons, List.tail_cons]
      rw [if_pos trivial]
      rw [show (' ' :: (dumpVal v ++ ',' :: ' ' :: (dumpFields (f2 :: fs) ++ '}' :: rest)))
          = [' '] ++ (dumpVal v ++ ',' :: ' ' :: (dumpFields (f2 :: fs) ++ '}' :: rest))
        from rfl]
      rw [parseVal_ws f [' '] _ (by intro c hc; simp at hc; rw [hc]; rfl)]
      rw [rtVal v _ f (by simp only [fsizeFields] at hf; omega)
        (by cases v <;> simp [noDigitHead] <;> decide)]
      dsimp only
      rw [skipWs_cons_not_ws _ _ (by decide)]
      simp only [List.head?_cons, List.tail_cons]
      rw [if_pos trivial]
      rw [show (' ' :: (dumpFields (f2 :: fs) ++ '}' :: rest))
          = [' '] ++ (dumpFields (f2 :: fs) ++ '}' :: rest) from rfl]
      rw [parseFieldList_ws f [' '] _ (by intro c hc; simp at hc; rw [hc]; rfl)]
      rw [rtFields f2 fs rest f (by simp only [fsizeFields] at hf; omega)]
      rfl
termination_by kv fs _ _ _ => sizeOf kv + sizeOf fs
end

mutual
theorem fsize_le_len : ∀ v : Json, fsize v ≤ (dumpVal v).length
  | .null => by simp [fsize, dumpVal]
  | .bool b => by cases b <;> simp [fsize, dumpVal]
  | .num i => by
      rcases dumpVal_head (.num i) with ⟨c, cs, hc, _, _, _⟩
      rw [hc]
      simp [fsize]
  | .str s => by simp [fsize, dumpVal]
  | .arr xs => by
      have h := fsizeElems_le_len xs
      simp only [fsize, dumpVal, List.length_cons, List.length_append]
      omega
  | .obj fs => by
      have h := fsizeFields_le_len fs
      simp only [fsize, dumpVal, List.length_cons, List.length_append]
      omega

theorem fsizeElems_le_len : ∀ l : List Json, fsizeElems l ≤ (dumpElems l).length + 1
  | [] => by simp [fsizeElems, dumpElems]
  | [x] => by
      have h := fsize_le_len x
      simp only [fsizeElems, dumpElems]
      omega
  | x :: y :: ys => by
      have h1 := fsize_le_len x
      have h2 := fsizeElems_le_len (y :: ys)
      simp only [fsizeElems, dumpElems, List.length_append, List.length_cons]
      omega

theorem fsizeFields_le_len : ∀ l : List (String × Json),
    fsizeFields l ≤ (dumpFields l).length + 1
  | [] => by simp [fsizeFields, dumpFields]
  | [(k, v)] => by
      have h := fsize_le_len v
      simp only [fsizeFields, dumpFields, List.length_append, List.length_cons]
      omega
  | (k, v) :: f2 :: fs => by
      have h1 := fsize_le_len v
      have h2 := fsizeFields_le_len (f2 :: fs)
      simp only [fsizeFields, dumpFields, List.length_append, List.length_cons]
      omega
end

theorem json_dumps_loads (v : Json) : json_loads (json_dumps v) = some v := by
  unfold json_loads json_dumps
  have hfuel : fsize v ≤ (String.mk (dumpVal v)).data.length + 1 :=
    le_trans (fsize_le_len v)
      (by rw [show (String.mk (dumpVal v)).data = dumpVal v from rfl]; omega)
  have h := rtVal v [] ((String.mk (dumpVal v)).data.length + 1) hfuel
    (by cases v <;> simp [noDigitHead])
  rw [List.append_nil] at h
  rw [show (String.mk (dumpVal v)).data = dumpVal v from rfl] at h ⊢
  rw [h]
  simp [skipWs]

/-- C4: for every field value that is a nested mapping or list and not a
sole-key `{"value": X}` wrapper, the flattener emits the textual JSON
serialization `json.dumps(v, ensure_ascii=False)` of the value, and that
serialization round-trips: `json.loads` of the produced string
reconstructs the original structure exactly. -/
theorem c4_serialization_roundtrip (v : Json) (hc : isComplex v = true)
    (hw : isValueWrapped v = false) :
    flattenVal v = Json.str (json_dumps v) ∧ json_loads (json_dumps v) = some v := by
  constructor
  · cases v with
    | arr xs => simp [flattenVal, hw]
    | obj fs => simp [flattenVal, hw]
    | null => simp [isComplex] at hc
    | bool b => simp [isComplex] at hc
    | num n => simp [isComplex] at hc
    | str s => simp [isComplex] at hc
  · exact json_dumps_loads v

/-- Witness for C4: a two-field object holding a nested array. -/
theorem c4_serialization_roundtrip_witness :
    isComplex (Json.obj [("a", Json.arr [Json.num 1, Json.str "x"]), ("b", Json.null)]) = true ∧
    isValueWrapped (Json.obj [("a", Json.arr [Json.num 1, Json.str "x"]),
      ("b", Json.null)]) = false ∧
    (flattenVal (Json.obj [("a", Json.arr [Json.num 1, Json.str "x"]), ("b", Json.null)])
        = Json.str (json_dumps (Json.obj [("a", Json.arr [Json.num 1, Json.str "x"]),
            ("b", Json.null)])) ∧
      json_loads (json_dumps (Json.obj [("a", Json.arr [Json.num 1, Json.str "x"]),
          ("b", Json.null)]))
        = some (Json.obj [("a", Json.arr [Json.num 1, Json.str "x"]), ("b", Json.null)])) :=
  ⟨by decide, by decide, c4_serialization_roundtrip _ (by decide) (by decide)⟩
